import Mathlib

/-! # sigslot.hpp: signal / slot registry with dispatch over a snapshot

A shallow embedding of `src/sigslot.hpp` (namespace `mp`): the key derivation
`easy_hash`, the slot map and order sequence owned by a `signal`, the
`connection` disposal capability, and the dispatch loop `signal::operator()`
with slots that may call back into the signal while they are being invoked.
-/

namespace mp

/-! ## Keys -/

/-- A `size_t` value used as key of the slot map. -/
abbrev Key := Nat

/-- `easy_hash(addr, obj)`: the receiver address xor-ed with the `size_t` word
stored at `addr`. The first argument is that word (the pointer word of the
callable), the second the receiver address. -/
def easy_hash (word obj : Nat) : Nat := obj ^^^ word

/-! ## Slots and the calls they make -/

/-- What a piece of user code does with the signal, call after call. A slot
body is such a sequence, and so is the surrounding program.

* `connect key fn obj body` is `sig.connect(std::make_pair(key, f))` where the
  callable `f` is identified by `(fn, obj)` and behaves as `body` when invoked;
  the connection it returns is kept by the environment;
* `disconnect fn obj` is the direct form `sig.disconnect(fn, obj)`;
* `conn_disconnect idx` is `c.disconnect()` on the connection returned by the
  `idx`-th call of connect;
* `clear` is `sig.clear()`, `dispatch` is `sig(args...)`. -/
inductive Prog where
  | done : Prog
  | connect (key fn obj : Nat) (body rest : Prog) : Prog
  | disconnect (fn obj : Nat) (rest : Prog) : Prog
  | conn_disconnect (idx : Nat) (rest : Prog) : Prog
  | clear (rest : Prog) : Prog
  | dispatch (rest : Prog) : Prog
  deriving DecidableEq, Repr

/-- A `slot_type` value (`std::function<void(param_t...)>`): the identity of the
callable (`fn`, `obj`) and the calls it makes back into the signal. -/
structure Slot where
  fn : Nat
  obj : Nat
  body : Prog
  deriving DecidableEq, Repr

/-- `easy_bind(MemPtr, obj)`: the key derived from the pair, together with the
callable that invokes the member on the receiver. -/
def easy_bind (fn obj : Nat) (body : Prog) : Key × Slot :=
  (easy_hash fn obj, { fn := fn, obj := obj, body := body })

/-! ## The slot map (`std::map<size_t, slot_type>`) -/

/-- The slot map as an association list kept in key order. -/
abbrev slot_list_t := List (Key × Slot)

/-- `std::map::find`: the callable stored under `k`, if any. -/
def slot_list_t.find (k : Key) : slot_list_t → Option Slot
  | [] => none
  | e :: m => if e.1 = k then some e.2 else slot_list_t.find k m

/-- Ordered insertion of a new node. -/
def slot_list_t.insert (k : Key) (f : Slot) : slot_list_t → slot_list_t
  | [] => [(k, f)]
  | e :: m => if k < e.1 then (k, f) :: e :: m else e :: slot_list_t.insert k f m

/-- `std::map::emplace`: inserts unless the key is present; the flag is the
`.second` of the returned pair. -/
def slot_list_t.emplace (k : Key) (f : Slot) (m : slot_list_t) : slot_list_t × Bool :=
  match slot_list_t.find k m with
  | some _ => (m, false)
  | none => (slot_list_t.insert k f m, true)

/-- `std::map::erase(key)`. -/
def slot_list_t.erase (k : Key) (m : slot_list_t) : slot_list_t :=
  m.filter (fun e => decide (e.1 ≠ k))

/-! ## The signal -/

/-- The members of `signal`. `m_slot_list` and `m_keys` are the objects the two
shared pointers point to; `obj_id` is the identity of that pair of objects
(a fresh pair is allocated by every `clear()`), which is what a weak pointer
taken by `connect` refers to. -/
structure signal where
  m_slot_list : slot_list_t
  m_keys : List Key
  obj_id : Nat
  deriving DecidableEq, Repr

/-- The closure `[wp_slot, key]` that `connect` returns. -/
structure deleter where
  wp_slot : Nat
  key : Key
  deriving DecidableEq, Repr

/-- The class `connection`: `m_deleter` is empty (`none`) or holds a closure. -/
structure connection where
  m_deleter : Option deleter
  deriving DecidableEq, Repr

/-- A default-constructed signal. -/
def signal.new : signal := { m_slot_list := [], m_keys := [], obj_id := 0 }

/-- `signal::clear()`: both pointers are reset to new empty objects. -/
def signal.clear (s : signal) : signal :=
  { m_slot_list := [], m_keys := [], obj_id := s.obj_id + 1 }

/-- `signal::connect(std::pair<size_t, slot_type>&&)`. -/
def signal.connect (slot : Key × Slot) (s : signal) : connection × signal :=
  let key := slot.1
  let r := slot_list_t.emplace key slot.2 s.m_slot_list
  if r.2 = false then
    ({ m_deleter := none }, s)
  else
    ({ m_deleter := some { wp_slot := s.obj_id, key := key } },
     { s with m_slot_list := r.1, m_keys := s.m_keys ++ [key] })

/-- `signal::connect(MemPtr, obj)`: `connect(easy_bind(MemPtr, obj))`. -/
def signal.connect_member (fn obj : Nat) (body : Prog) (s : signal) : connection × signal :=
  signal.connect (easy_bind fn obj body) s

/-- `signal::disconnect(MemPtr, obj)`, the direct form. -/
def signal.disconnect (fn obj : Nat) (s : signal) : signal :=
  { s with m_slot_list := slot_list_t.erase (easy_hash fn obj) s.m_slot_list }

/-- Running the closure: `wp_slot.lock()` gives the map the closure was made
for. When that map is the one the signal points to, the key is erased from it.
Otherwise the signal has been cleared since: the old map is gone (the lock
fails), or it is only kept alive by the local `slot_list` of a pass in flight,
which never reads it; either way the signal's members are untouched. -/
def deleter.run (d : deleter) (s : signal) : signal :=
  if d.wp_slot = s.obj_id then
    { s with m_slot_list := slot_list_t.erase d.key s.m_slot_list }
  else s

/-- `connection::disconnect()`: runs the closure if there is one, then clears it. -/
def connection.disconnect (c : connection) (s : signal) : connection × signal :=
  match c.m_deleter with
  | some d => ({ m_deleter := none }, d.run s)
  | none => (c, s)

/-! ## The environment of the signal -/

/-- What happens, in order. `invoke` is a call of a stored callable by a
dispatch pass; `connected` is a successful insertion by connect; `erased` is an
`erase(key)` on the map the signal points to. -/
inductive Event where
  | invoke (key : Key) (fn obj : Nat) : Event
  | connected (key : Key) : Event
  | erased (key : Key) : Event
  deriving DecidableEq, Repr

/-- How a run can go wrong: the model ran out of call depth, or a tombstone
write `(*keysref)[i] = 0` was outside the vector. -/
inductive Fault where
  | out_of_fuel : Fault
  | out_of_bounds : Fault
  deriving DecidableEq, Repr

/-- The outcome of a run. -/
inductive Res (α : Type) where
  | ok (a : α) : Res α
  | fault (f : Fault) : Res α
  deriving DecidableEq, Repr

/-- The signal together with what surrounds it: the connection objects returned
so far (in the order of the connect calls), the order vectors released by
`clear()` (a pass in flight may still hold one through `keysref`), and the
record of events. -/
structure World where
  sig : signal
  conns : List connection
  retired : List (Nat × List Key)
  log : List Event
  deriving DecidableEq, Repr

/-- A new signal, nothing connected, nothing recorded. -/
def World.new : World := { sig := signal.new, conns := [], retired := [], log := [] }

/-- A call of `sig.connect(std::make_pair(key, f))`; the returned connection is
stored by the environment. -/
def World.connect (key : Key) (f : Slot) (w : World) : World :=
  let r := signal.connect (key, f) w.sig
  { w with
    sig := r.2
    conns := w.conns ++ [r.1]
    log := if r.1.m_deleter.isSome then w.log ++ [Event.connected key] else w.log }

/-- A call of the direct form `sig.disconnect(fn, obj)`. -/
def World.disconnect (fn obj : Nat) (w : World) : World :=
  { w with
    sig := signal.disconnect fn obj w.sig
    log := w.log ++ [Event.erased (easy_hash fn obj)] }

/-- A call of `disconnect()` on the connection returned by the `idx`-th connect.
An index that names no connection stands for a default-constructed one. -/
def World.conn_disconnect (idx : Nat) (w : World) : World :=
  match w.conns[idx]? with
  | none => w
  | some c =>
    let r := connection.disconnect c w.sig
    { w with
      sig := r.2
      conns := w.conns.set idx r.1
      log := match c.m_deleter with
        | some d => if d.wp_slot = w.sig.obj_id then w.log ++ [Event.erased d.key] else w.log
        | none => w.log }

/-- A call of `sig.clear()`. The released order vector is remembered under the
identity it had. -/
def World.clear (w : World) : World :=
  { w with
    sig := signal.clear w.sig
    retired := (w.sig.obj_id, w.sig.m_keys) :: w.retired }

/-- The vector a `keysref` taken when the signal had identity `g` points to. -/
def World.vec_at (g : Nat) (w : World) : Option (List Key) :=
  if g = w.sig.obj_id then some w.sig.m_keys else w.retired.lookup g

/-- Replaces the vector a `keysref` points to. -/
def World.set_vec (g : Nat) (v : List Key) (w : World) : World :=
  if g = w.sig.obj_id then { w with sig := { w.sig with m_keys := v } }
  else { w with retired := w.retired.map (fun e => if e.1 = g then (g, v) else e) }

/-- The tombstone write `(*keysref)[i] = 0` of `operator()`. -/
def World.tombstone (g i : Nat) (w : World) : Res World :=
  match w.vec_at g with
  | none => Res.fault Fault.out_of_bounds
  | some v =>
    if i < v.length then Res.ok (w.set_vec g (v.set i 0))
    else Res.fault Fault.out_of_bounds

/-- The compaction `keysref->erase(std::remove(begin, end, 0), end)`. -/
def World.compact (g : Nat) (w : World) : World :=
  match w.vec_at g with
  | none => w
  | some v => w.set_vec g (v.filter (fun k => decide (k ≠ 0)))

/-- Records the call of the callable found under `key`. -/
def World.invoked (key : Key) (f : Slot) (w : World) : World :=
  { w with log := w.log ++ [Event.invoke key f.fn f.obj] }

/-! ## Running user code and dispatching -/

/-- Runs a sequence of calls; `disp` is what a call of `sig(args...)` does. -/
def run (disp : World → Res World) : Prog → World → Res World
  | Prog.done, w => Res.ok w
  | Prog.connect key fn obj body rest, w =>
    run disp rest (w.connect key { fn := fn, obj := obj, body := body })
  | Prog.disconnect fn obj rest, w => run disp rest (w.disconnect fn obj)
  | Prog.conn_disconnect idx rest, w => run disp rest (w.conn_disconnect idx)
  | Prog.clear rest, w => run disp rest w.clear
  | Prog.dispatch rest, w =>
    match disp w with
    | Res.ok w1 => run disp rest w1
    | Res.fault f => Res.fault f

/-- The loop of `operator()` from index `i` on, over the rest of the snapshot
`keys`. `g` is the identity `keysref` was taken at, `erased` the flag. Each key
is looked up in the map the signal points to at that moment. -/
def loop (call : Slot → World → Res World) (g : Nat) :
    List Key → Nat → Bool → World → Res (Bool × World)
  | [], _, erased, w => Res.ok (erased, w)
  | k :: ks, i, erased, w =>
    match slot_list_t.find k w.sig.m_slot_list with
    | some f =>
      match call f (w.invoked k f) with
      | Res.ok w1 => loop call g ks (i + 1) erased w1
      | Res.fault e => Res.fault e
    | none =>
      match w.tombstone g i with
      | Res.ok w1 => loop call g ks (i + 1) true w1
      | Res.fault e => Res.fault e

/-- `signal::operator()`: snapshot of the order vector, the loop, and the
compaction when a tombstone was written. `fuel` bounds the depth of passes
started from inside a pass. -/
def dispatch : Nat → World → Res World
  | 0, _ => Res.fault Fault.out_of_fuel
  | fuel + 1, w =>
    match loop (fun f w1 => run (dispatch fuel) f.body w1) w.sig.obj_id w.sig.m_keys 0 false w with
    | Res.ok r => Res.ok (if r.1 then r.2.compact w.sig.obj_id else r.2)
    | Res.fault e => Res.fault e

/-- Runs a program against the signal. -/
def exec (fuel : Nat) (p : Prog) (w : World) : Res World := run (dispatch fuel) p w

/-! ## Events of a run, reachable worlds and invariants -/

/-- The events recorded after the world `w`, up to the later world `w'`. -/
def events_since (w w' : World) : List Event := w'.log.drop w.log.length

/-- What one event does to the question whether key `b` has been erased and not
connected again since; `none` when the event is a call of `b` in that state. -/
def gone_step (b : Key) (g : Bool) : Event → Option Bool
  | Event.erased k => some (g || decide (k = b))
  | Event.connected k => some (g && decide (k ≠ b))
  | Event.invoke k _ _ => if k = b ∧ g = true then none else some g

/-- Runs `gone_step` along a list of events. -/
def gone_scan (b : Key) : Bool → List Event → Option Bool
  | g, [] => some g
  | g, e :: l => (gone_step b g e).bind (fun g1 => gone_scan b g1 l)


/-- The connection stored at `idx` exists, and when it holds a closure, that
closure was made for a registry whose identity plus `b` is at most the current
one. -/
def conn_older (idx b : Nat) (w : World) : Prop :=
  idx < w.conns.length ∧
  ∀ c d, w.conns[idx]? = some c → c.m_deleter = some d → d.wp_slot + b ≤ w.sig.obj_id


/-- The events recorded since position `n` of the log never call `b` while it is
erased and not connected again, and when `b` is in that state at the end, it is
not in the slot map. -/
def gone_inv (b : Key) (n : Nat) (w : World) : Prop :=
  n ≤ w.log.length ∧
  ∃ g, gone_scan b false (w.log.drop n) = some g ∧
    (g = true → slot_list_t.find b w.sig.m_slot_list = none)


/-- Code whose connect calls use keys other than 0 and callables that make no
call back into the signal. -/
def Prog.plain : Prog → Bool
  | Prog.done => true
  | Prog.connect key _ _ body rest =>
    decide (key ≠ 0) && decide (body = Prog.done) && Prog.plain rest
  | Prog.disconnect _ _ rest => Prog.plain rest
  | Prog.conn_disconnect _ rest => Prog.plain rest
  | Prog.clear rest => Prog.plain rest
  | Prog.dispatch rest => Prog.plain rest

/-- The worlds a new signal gets to by connect, disconnect (both forms), clear
and completed dispatch passes of plain code. -/
def reachable_plain (w : World) : Prop :=
  ∃ fuel p, Prog.plain p = true ∧ exec fuel p World.new = Res.ok w

/-- What a pass leaves at the position of key `k` when no callable changes the
map `m`: the key itself, or the tombstone. -/
def tomb (m : slot_list_t) (k : Key) : Key :=
  if (slot_list_t.find k m).isSome then k else 0

/-- The calls a pass over `ks` makes when no callable changes the map `m`. -/
def calls (m : slot_list_t) (ks : List Key) : List Event :=
  ks.filterMap (fun k => (slot_list_t.find k m).map (fun f => Event.invoke k f.fn f.obj))

/-- Every key of the slot map is not 0, is listed in the order sequence, and
its callable makes no call back. -/
def plain_inv (w : World) : Prop :=
  ∀ k f, slot_list_t.find k w.sig.m_slot_list = some f →
    k ≠ 0 ∧ k ∈ w.sig.m_keys ∧ f.body = Prog.done

/-! ## Example programs and worlds -/

/-- The calls of `main()`: `fn1` has pointer word 11, `fn` has 10, the receiver
`a` is at 100; the scoped connection `conn` is disposed at the end of the block. -/
def main_calls : Prog :=
  Prog.connect (easy_hash 11 100) 11 100 Prog.done <|
  Prog.connect (easy_hash 10 100) 10 100 Prog.done <|
  Prog.dispatch <| Prog.conn_disconnect 1 <| Prog.dispatch <|
  Prog.connect (easy_hash 10 100) 10 100 Prog.done <| Prog.dispatch <|
  Prog.disconnect 10 100 <| Prog.dispatch <| Prog.conn_disconnect 0 <|
  Prog.dispatch Prog.done

/-- The first two calls of `main()`. -/
def main_connects : Prog :=
  Prog.connect (easy_hash 11 100) 11 100 Prog.done <|
  Prog.connect (easy_hash 10 100) 10 100 Prog.done Prog.done

/-- The world after the first two calls of `main()`. -/
def main_world : World :=
  { sig :=
      { m_slot_list := [(110, { fn := 10, obj := 100, body := Prog.done }),
                        (111, { fn := 11, obj := 100, body := Prog.done })]
        m_keys := [111, 110]
        obj_id := 0 }
    conns := [{ m_deleter := some { wp_slot := 0, key := 111 } },
              { m_deleter := some { wp_slot := 0, key := 110 } }]
    retired := []
    log := [Event.connected 111, Event.connected 110] }

/-- Connect, direct disconnect and connect again of the pair `(1, 4)` (key 5),
with no pass in between. -/
def reconnect_calls : Prog :=
  Prog.connect (easy_hash 1 4) 1 4 Prog.done <|
  Prog.disconnect 1 4 <|
  Prog.connect (easy_hash 1 4) 1 4 Prog.done Prog.done

/-- The world after `reconnect_calls`. -/
def reconnect_world : World :=
  { sig :=
      { m_slot_list := [(5, { fn := 1, obj := 4, body := Prog.done })]
        m_keys := [5, 5]
        obj_id := 0 }
    conns := [{ m_deleter := some { wp_slot := 0, key := 5 } },
              { m_deleter := some { wp_slot := 0, key := 5 } }]
    retired := []
    log := [Event.connected 5, Event.erased 5, Event.connected 5] }

/-- The pair `(1, 4)` (key 5) is connected and disconnected, then `(2, 4)`
(key 6) is connected, then `(1, 4)` again. -/
def order_calls : Prog :=
  Prog.connect (easy_hash 1 4) 1 4 Prog.done <|
  Prog.disconnect 1 4 <|
  Prog.connect (easy_hash 2 4) 2 4 Prog.done <|
  Prog.connect (easy_hash 1 4) 1 4 Prog.done Prog.done

/-- The world after `order_calls`. -/
def order_world : World :=
  { sig :=
      { m_slot_list := [(5, { fn := 1, obj := 4, body := Prog.done }),
                        (6, { fn := 2, obj := 4, body := Prog.done })]
        m_keys := [5, 6, 5]
        obj_id := 0 }
    conns := [{ m_deleter := some { wp_slot := 0, key := 5 } },
              { m_deleter := some { wp_slot := 0, key := 6 } },
              { m_deleter := some { wp_slot := 0, key := 5 } }]
    retired := []
    log := [Event.connected 5, Event.erased 5, Event.connected 6, Event.connected 5] }

/-- The callable `(1, 4)` (key 5) connects `(2, 4)` (key 6) when it is invoked;
before the pass `(2, 4)` has been connected and disconnected. -/
def late_connect_calls : Prog :=
  Prog.connect (easy_hash 1 4) 1 4 (Prog.connect (easy_hash 2 4) 2 4 Prog.done Prog.done) <|
  Prog.connect (easy_hash 2 4) 2 4 Prog.done <|
  Prog.disconnect 2 4 Prog.done

/-- The world after `late_connect_calls`. -/
def late_connect_world : World :=
  { sig :=
      { m_slot_list :=
          [(5, { fn := 1, obj := 4, body := Prog.connect 6 2 4 Prog.done Prog.done })]
        m_keys := [5, 6]
        obj_id := 0 }
    conns := [{ m_deleter := some { wp_slot := 0, key := 5 } },
              { m_deleter := some { wp_slot := 0, key := 6 } }]
    retired := []
    log := [Event.connected 5, Event.connected 6, Event.erased 6] }

/-- The world after a pass over `late_connect_world`. -/
def late_connect_after : World :=
  { sig :=
      { m_slot_list :=
          [(5, { fn := 1, obj := 4, body := Prog.connect 6 2 4 Prog.done Prog.done }),
           (6, { fn := 2, obj := 4, body := Prog.done })]
        m_keys := [5, 6, 6]
        obj_id := 0 }
    conns := [{ m_deleter := some { wp_slot := 0, key := 5 } },
              { m_deleter := some { wp_slot := 0, key := 6 } },
              { m_deleter := some { wp_slot := 0, key := 6 } }]
    retired := []
    log := [Event.connected 5, Event.connected 6, Event.erased 6,
            Event.invoke 5 1 4, Event.connected 6, Event.invoke 6 2 4] }

/-- A world in which the callable `(1, 4)` (key 5), when invoked, disconnects
`(2, 4)` (key 6) by the direct form; `(2, 4)` and `(3, 4)` (key 7) come after
it in the order sequence. -/
def drop_world : World :=
  { sig :=
      { m_slot_list :=
          [(5, { fn := 1, obj := 4, body := Prog.disconnect 2 4 Prog.done }),
           (6, { fn := 2, obj := 4, body := Prog.done }),
           (7, { fn := 3, obj := 4, body := Prog.done })]
        m_keys := [5, 6, 7]
        obj_id := 0 }
    conns := [{ m_deleter := some { wp_slot := 0, key := 5 } },
              { m_deleter := some { wp_slot := 0, key := 6 } },
              { m_deleter := some { wp_slot := 0, key := 7 } }]
    retired := []
    log := [Event.connected 5, Event.connected 6, Event.connected 7] }

/-- The world after a pass over `drop_world`. -/
def drop_after : World :=
  { sig :=
      { m_slot_list :=
          [(5, { fn := 1, obj := 4, body := Prog.disconnect 2 4 Prog.done }),
           (7, { fn := 3, obj := 4, body := Prog.done })]
        m_keys := [5, 7]
        obj_id := 0 }
    conns := [{ m_deleter := some { wp_slot := 0, key := 5 } },
              { m_deleter := some { wp_slot := 0, key := 6 } },
              { m_deleter := some { wp_slot := 0, key := 7 } }]
    retired := []
    log := [Event.connected 5, Event.connected 6, Event.connected 7,
            Event.invoke 5 1 4, Event.erased 6, Event.invoke 7 3 4] }

/-! ## Scoped connections -/

/-- `connection::disconnect()` together with a count of the calls of `m_deleter`
it makes: `runs` is the count so far. -/
def connection.disconnect_counted (c : connection) (s : signal) (runs : Nat) :
    connection × signal × Nat :=
  match c.m_deleter with
  | some d => ({ m_deleter := none }, d.run s, runs + 1)
  | none => (c, s, runs)

/-- The class `scoped_connection`: a `connection` (its base class) whose
destructor calls `disconnect()`. -/
structure scoped_connection extends connection
  deriving DecidableEq, Repr

/-- `scoped_connection()`: the base is default-constructed, the deleter empty. -/
def scoped_connection.new : scoped_connection := { m_deleter := none }

/-- `scoped_connection(connection &&rhs)`: the base is move-assigned from `rhs`.
The result is the wrapper and what is left of `rhs`; a moved-from
`std::function` is taken to be empty. -/
def scoped_connection.of_connection (rhs : connection) : scoped_connection × connection :=
  ({ m_deleter := rhs.m_deleter }, { m_deleter := none })

/-- The inherited `disconnect()` called on the wrapper. -/
def scoped_connection.disconnect (c : scoped_connection) (s : signal) (runs : Nat) :
    scoped_connection × signal × Nat :=
  let r := connection.disconnect_counted c.toconnection s runs
  ({ toconnection := r.1 }, r.2.1, r.2.2)

/-- `operator=(connection &&rhs)`: `disconnect()`, then the base is
move-assigned from `rhs`. The result is the wrapper, what is left of `rhs`, the
signal and the count of deleter calls. -/
def scoped_connection.assign (c : scoped_connection) (rhs : connection) (s : signal)
    (runs : Nat) : scoped_connection × connection × signal × Nat :=
  let r := scoped_connection.disconnect c s runs
  ({ m_deleter := rhs.m_deleter }, { m_deleter := none }, r.2.1, r.2.2)

/-- `operator=(scoped_connection &&rhs)`: `disconnect()`, then the base is
move-assigned from `rhs`. -/
def scoped_connection.move_assign (c rhs : scoped_connection) (s : signal) (runs : Nat) :
    scoped_connection × scoped_connection × signal × Nat :=
  let r := scoped_connection.disconnect c s runs
  ({ m_deleter := rhs.m_deleter }, { m_deleter := none }, r.2.1, r.2.2)

/-- The destructor `~scoped_connection()`: `disconnect()`. The result is the
signal and the count of deleter calls. -/
def scoped_connection.destroy (c : scoped_connection) (s : signal) (runs : Nat) :
    signal × Nat :=
  (scoped_connection.disconnect c s runs).2

/-! ## A clear during a pass -/

/-- As long as the events recorded since position `n` of the log hold no connect
of `b`, key `b` is not in the slot map and no callable has been invoked under it
since then. -/
def absent_inv (b : Key) (n : Nat) (w : World) : Prop :=
  n ≤ w.log.length ∧
  (Event.connected b ∉ w.log.drop n →
    slot_list_t.find b w.sig.m_slot_list = none ∧
    ∀ fn obj, Event.invoke b fn obj ∉ w.log.drop n)

/-- A world in which the callable `(1, 4)` (key 5), when invoked, clears the
signal; `(2, 4)` (key 6) comes after it in the order sequence. -/
def clear_world : World :=
  { sig :=
      { m_slot_list :=
          [(5, { fn := 1, obj := 4, body := Prog.clear Prog.done }),
           (6, { fn := 2, obj := 4, body := Prog.done })]
        m_keys := [5, 6]
        obj_id := 0 }
    conns := [{ m_deleter := some { wp_slot := 0, key := 5 } },
              { m_deleter := some { wp_slot := 0, key := 6 } }]
    retired := []
    log := [Event.connected 5, Event.connected 6] }

/-- The world after a pass over `clear_world`: the signal holds the new empty
map and order vector, the released order vector has been tombstoned and
compacted, and only the callable under key 5 has been invoked. -/
def clear_after : World :=
  { sig := { m_slot_list := [], m_keys := [], obj_id := 1 }
    conns := [{ m_deleter := some { wp_slot := 0, key := 5 } },
              { m_deleter := some { wp_slot := 0, key := 6 } }]
    retired := [(0, [5])]
    log := [Event.connected 5, Event.connected 6, Event.invoke 5 1 4] }

/-! ## Callables that only connect and disconnect -/

/-- Code that calls only connect and disconnect (direct form or through a
connection), and connects only callables that do the same. -/
def Prog.rewiring : Prog → Bool
  | Prog.done => true
  | Prog.connect _ _ _ body rest => Prog.rewiring body && Prog.rewiring rest
  | Prog.disconnect _ _ rest => Prog.rewiring rest
  | Prog.conn_disconnect _ rest => Prog.rewiring rest
  | Prog.clear _ => false
  | Prog.dispatch _ => false

/-- Code whose connect calls, those of the callables it connects included, use
keys other than 0. -/
def Prog.nonzero : Prog → Bool
  | Prog.done => true
  | Prog.connect key _ _ body rest =>
    decide (key ≠ 0) && Prog.nonzero body && Prog.nonzero rest
  | Prog.disconnect _ _ rest => Prog.nonzero rest
  | Prog.conn_disconnect _ rest => Prog.nonzero rest
  | Prog.clear rest => Prog.nonzero rest
  | Prog.dispatch rest => Prog.nonzero rest

/-- Every callable in the slot map only connects and disconnects. -/
def rew_inv (w : World) : Prop :=
  ∀ k f, slot_list_t.find k w.sig.m_slot_list = some f → Prog.rewiring f.body = true

/-- Every key of the slot map is not 0 and is listed in the order sequence, and
its callable connects with keys other than 0 only. -/
def listed_inv (w : World) : Prop :=
  ∀ k f, slot_list_t.find k w.sig.m_slot_list = some f →
    k ≠ 0 ∧ k ∈ w.sig.m_keys ∧ Prog.nonzero f.body = true

/-- Whether the event is a call of a stored callable. -/
def is_invoke : Event → Bool
  | Event.invoke _ _ _ => true
  | _ => false

/-- The keys of the successful connects among the events, in order. -/
def connected_keys : List Event → List Key
  | [] => []
  | Event.connected k :: l => k :: connected_keys l
  | _ :: l => connected_keys l

/-- From `w` to `w2` the registry identity stays, the events `ev` are recorded,
none of them a call of a callable, and the keys connected are appended to the
order sequence. -/
def extends_by (w w2 : World) (ev : List Event) : Prop :=
  w2.sig.obj_id = w.sig.obj_id ∧
  w2.log = w.log ++ ev ∧
  ev.filter is_invoke = [] ∧
  w2.sig.m_keys = w.sig.m_keys ++ connected_keys ev

/-- Whether every tombstone write of the loop of `operator()` is at an index of
the vector `keysref` points to, and that position holds the key that was looked
up and not found. Same recursion as `loop`. -/
def writes_on_key (call : Slot → World → Res World) (g : Nat) :
    List Key → Nat → World → Bool
  | [], _, _ => true
  | k :: ks, i, w =>
    match slot_list_t.find k w.sig.m_slot_list with
    | some f =>
      match call f (w.invoked k f) with
      | Res.ok w1 => writes_on_key call g ks (i + 1) w1
      | Res.fault _ => true
    | none =>
      decide ((w.vec_at g).bind (fun v => v[i]?) = some k) &&
      match w.tombstone g i with
      | Res.ok w1 => writes_on_key call g ks (i + 1) w1
      | Res.fault _ => true

/-- `writes_on_key` for the pass `dispatch (fuel + 1) w`. -/
def pass_writes_on_key (fuel : Nat) (w : World) : Bool :=
  writes_on_key (fun f w1 => run (dispatch fuel) f.body w1) w.sig.obj_id w.sig.m_keys 0 w


/-- A world in which each of the two connected callables, when invoked, connects
a further callable, which in turn would connect another one. -/
def chain_world : World :=
  { sig :=
      { m_slot_list :=
          [(5, { fn := 1, obj := 4,
                 body := Prog.connect 7 3 4 (Prog.connect 9 13 4 Prog.done Prog.done) Prog.done }),
           (6, { fn := 2, obj := 4,
                 body := Prog.connect 8 12 4 (Prog.connect 10 14 4 Prog.done Prog.done) Prog.done })]
        m_keys := [5, 6]
        obj_id := 0 }
    conns := [{ m_deleter := some { wp_slot := 0, key := 5 } },
              { m_deleter := some { wp_slot := 0, key := 6 } }]
    retired := []
    log := [Event.connected 5, Event.connected 6] }

/-! ## Example programs and worlds: passes inside passes, key 0, equal keys -/

/-- The callable `(1, 4)` (key 5), when invoked, disconnects itself and calls
the signal again; `(2, 4)` (key 6) has been connected and disconnected, `(3, 4)`
(key 7) and `(8, 4)` (key 12) are connected. -/
def nested_calls : Prog :=
  Prog.connect (easy_hash 1 4) 1 4 (Prog.disconnect 1 4 (Prog.dispatch Prog.done)) <|
  Prog.connect (easy_hash 2 4) 2 4 Prog.done <|
  Prog.connect (easy_hash 3 4) 3 4 Prog.done <|
  Prog.connect (easy_hash 8 4) 8 4 Prog.done <|
  Prog.disconnect 2 4 Prog.done

/-- The world after `nested_calls`. -/
def nested_world : World :=
  { sig :=
      { m_slot_list :=
          [(5, { fn := 1, obj := 4, body := Prog.disconnect 1 4 (Prog.dispatch Prog.done) }),
           (7, { fn := 3, obj := 4, body := Prog.done }),
           (12, { fn := 8, obj := 4, body := Prog.done })]
        m_keys := [5, 6, 7, 12]
        obj_id := 0 }
    conns := [{ m_deleter := some { wp_slot := 0, key := 5 } },
              { m_deleter := some { wp_slot := 0, key := 6 } },
              { m_deleter := some { wp_slot := 0, key := 7 } },
              { m_deleter := some { wp_slot := 0, key := 12 } }]
    retired := []
    log := [Event.connected 5, Event.connected 6, Event.connected 7, Event.connected 12,
            Event.erased 6] }

/-- The world after a pass over `nested_world`: key 12 is in the slot map and
no longer in the order sequence. -/
def nested_after : World :=
  { sig :=
      { m_slot_list :=
          [(7, { fn := 3, obj := 4, body := Prog.done }),
           (12, { fn := 8, obj := 4, body := Prog.done })]
        m_keys := [7]
        obj_id := 0 }
    conns := nested_world.conns
    retired := []
    log := nested_world.log ++
      [Event.invoke 5 1 4, Event.erased 5,
       Event.invoke 7 3 4, Event.invoke 12 8 4,
       Event.invoke 7 3 4, Event.invoke 12 8 4] }

/-- As `nested_calls`, with only `(2, 4)` (key 6) after `(1, 4)`. -/
def nested_short_calls : Prog :=
  Prog.connect (easy_hash 1 4) 1 4 (Prog.disconnect 1 4 (Prog.dispatch Prog.done)) <|
  Prog.connect (easy_hash 2 4) 2 4 Prog.done <|
  Prog.disconnect 2 4 Prog.done

/-- The world after `nested_short_calls`. -/
def nested_short_world : World :=
  { sig :=
      { m_slot_list :=
          [(5, { fn := 1, obj := 4, body := Prog.disconnect 1 4 (Prog.dispatch Prog.done) })]
        m_keys := [5, 6]
        obj_id := 0 }
    conns := [{ m_deleter := some { wp_slot := 0, key := 5 } },
              { m_deleter := some { wp_slot := 0, key := 6 } }]
    retired := []
    log := [Event.connected 5, Event.connected 6, Event.erased 6] }

/-- `reconnect_calls`, then `disconnect()` on the connection returned by the
first connect, then a pass. -/
def reconnect_dispose_calls : Prog :=
  Prog.connect (easy_hash 1 4) 1 4 Prog.done <|
  Prog.disconnect 1 4 <|
  Prog.connect (easy_hash 1 4) 1 4 Prog.done <|
  Prog.conn_disconnect 0 <|
  Prog.dispatch Prog.done

/-- The pairs `(1, 4)` and `(2, 7)` both have key 5; both are connected, then
the signal is called twice. -/
def equal_key_calls : Prog :=
  Prog.connect (easy_hash 1 4) 1 4 Prog.done <|
  Prog.connect (easy_hash 2 7) 2 7 Prog.done <|
  Prog.dispatch <| Prog.dispatch Prog.done


/-- A world in which the callable `(1, 4)` (key 5), when invoked, clears the
signal and then connects the callable `(3, 5)`, whose key is 6 as well; the
callable `(2, 4)` is stored under key 6 and comes after key 5 in the order
sequence. -/
def clear_reconnect_world : World :=
  { sig :=
      { m_slot_list :=
          [(5, { fn := 1, obj := 4,
                 body := Prog.clear (Prog.connect (easy_hash 3 5) 3 5 Prog.done Prog.done) }),
           (6, { fn := 2, obj := 4, body := Prog.done })]
        m_keys := [5, 6]
        obj_id := 0 }
    conns := [{ m_deleter := some { wp_slot := 0, key := 5 } },
              { m_deleter := some { wp_slot := 0, key := 6 } }]
    retired := []
    log := [Event.connected 5, Event.connected 6] }

/-- The world in which the callable under key 5 of `clear_reconnect_world` has
just been called and is about to call `clear()`. -/
def clear_reconnect_called : World :=
  clear_reconnect_world.invoked 5
    { fn := 1, obj := 4,
      body := Prog.clear (Prog.connect (easy_hash 3 5) 3 5 Prog.done Prog.done) }

/-- The world after that callable has returned: the signal points to the new
map, which holds the callable `(3, 5)` under key 6. -/
def clear_reconnect_returned : World :=
  { sig :=
      { m_slot_list := [(6, { fn := 3, obj := 5, body := Prog.done })]
        m_keys := [6]
        obj_id := 1 }
    conns := [{ m_deleter := some { wp_slot := 0, key := 5 } },
              { m_deleter := some { wp_slot := 0, key := 6 } },
              { m_deleter := some { wp_slot := 1, key := 6 } }]
    retired := [(0, [5, 6])]
    log := [Event.connected 5, Event.connected 6, Event.invoke 5 1 4, Event.connected 6] }

/-- The snapshot entries at whose position the loop of `operator()` finds the
key in the map, that is, the entries it does not tombstone, in snapshot order.
Same recursion as `loop`. -/
def kept (call : Slot → World → Res World) (g : Nat) : List Key → Nat → World → List Key
  | [], _, _ => []
  | k :: ks, i, w =>
    match slot_list_t.find k w.sig.m_slot_list with
    | some f =>
      k :: (match call f (w.invoked k f) with
            | Res.ok w1 => kept call g ks (i + 1) w1
            | Res.fault _ => [])
    | none =>
      match w.tombstone g i with
      | Res.ok w1 => kept call g ks (i + 1) w1
      | Res.fault _ => []

/-- `kept` for the pass `dispatch (fuel + 1) w`. -/
def pass_kept (fuel : Nat) (w : World) : List Key :=
  kept (fun f w1 => run (dispatch fuel) f.body w1) w.sig.obj_id w.sig.m_keys 0 w

/-! ## The slot map: lookups after insertion and erasure -/

theorem find_insert_self (k : Key) (f : Slot) (m : slot_list_t)
    (h : slot_list_t.find k m = none) :
    slot_list_t.find k (slot_list_t.insert k f m) = some f := by
  induction m with
  | nil => simp [slot_list_t.insert, slot_list_t.find]
  | cons e m ih =>
    simp only [slot_list_t.find] at h
    by_cases he : e.1 = k
    · simp [he] at h
    · simp only [he, if_false] at h
      simp only [slot_list_t.insert]
      by_cases hlt : k < e.1
      · simp [hlt, slot_list_t.find]
      · simp [hlt, slot_list_t.find, he, ih h]

theorem find_insert_other (k k' : Key) (f : Slot) (m : slot_list_t) (hk : k' ≠ k) :
    slot_list_t.find k' (slot_list_t.insert k f m) = slot_list_t.find k' m := by
  induction m with
  | nil => simp [slot_list_t.insert, slot_list_t.find, Ne.symm hk]
  | cons e m ih =>
    simp only [slot_list_t.insert]
    by_cases hlt : k < e.1
    · simp [hlt, slot_list_t.find, Ne.symm hk]
    · simp [hlt, slot_list_t.find, ih]

theorem erase_cons (k : Key) (e : Key × Slot) (m : slot_list_t) :
    slot_list_t.erase k (e :: m)
      = if e.1 = k then slot_list_t.erase k m else e :: slot_list_t.erase k m := by
  by_cases he : e.1 = k <;> simp [slot_list_t.erase, List.filter_cons, he]

theorem find_erase_self (k : Key) (m : slot_list_t) :
    slot_list_t.find k (slot_list_t.erase k m) = none := by
  induction m with
  | nil => simp [slot_list_t.erase, slot_list_t.find]
  | cons e m ih =>
    rw [erase_cons]
    by_cases he : e.1 = k
    · simp [he, ih]
    · simp [he, slot_list_t.find, ih]

theorem find_erase_other (k k' : Key) (m : slot_list_t) (hk : k' ≠ k) :
    slot_list_t.find k' (slot_list_t.erase k m) = slot_list_t.find k' m := by
  induction m with
  | nil => simp [slot_list_t.erase, slot_list_t.find]
  | cons e m ih =>
    rw [erase_cons]
    by_cases he : e.1 = k
    · simp [he, slot_list_t.find, ih, Ne.symm hk]
    · simp [he, slot_list_t.find, ih]

theorem erase_of_find_none (k : Key) (m : slot_list_t) (h : slot_list_t.find k m = none) :
    slot_list_t.erase k m = m := by
  induction m with
  | nil => simp [slot_list_t.erase]
  | cons e m ih =>
    simp only [slot_list_t.find] at h
    by_cases he : e.1 = k
    · simp [he] at h
    · simp only [he, if_false] at h
      rw [erase_cons]
      simp [he, ih h]

theorem find_erase_none_of_none (k k' : Key) (m : slot_list_t)
    (h : slot_list_t.find k' m = none) :
    slot_list_t.find k' (slot_list_t.erase k m) = none := by
  by_cases hk : k' = k
  · subst hk; exact find_erase_self _ _
  · rw [find_erase_other k k' m hk]; exact h

/-! ## Fields of the world after each call -/

theorem signal_connect_cases (key : Key) (f : Slot) (s : signal) :
    (slot_list_t.find key s.m_slot_list ≠ none ∧
      signal.connect (key, f) s = ({ m_deleter := none }, s)) ∨
    (slot_list_t.find key s.m_slot_list = none ∧
      signal.connect (key, f) s =
        ({ m_deleter := some { wp_slot := s.obj_id, key := key } },
         { s with m_slot_list := slot_list_t.insert key f s.m_slot_list,
                  m_keys := s.m_keys ++ [key] })) := by
  cases h : slot_list_t.find key s.m_slot_list with
  | some g =>
    left
    exact ⟨by simp, by simp [signal.connect, slot_list_t.emplace, h]⟩
  | none =>
    right
    exact ⟨rfl, by simp [signal.connect, slot_list_t.emplace, h]⟩

theorem signal_connect_obj_id (slot : Key × Slot) (s : signal) :
    (signal.connect slot s).2.obj_id = s.obj_id := by
  rcases signal_connect_cases slot.1 slot.2 s with ⟨_, h⟩ | ⟨_, h⟩ <;> rw [h]

theorem deleter_run_obj_id (d : deleter) (s : signal) : (d.run s).obj_id = s.obj_id := by
  unfold deleter.run
  split <;> rfl

theorem deleter_run_keys (d : deleter) (s : signal) : (d.run s).m_keys = s.m_keys := by
  unfold deleter.run
  split <;> rfl

theorem set_vec_slot_list (g : Nat) (v : List Key) (w : World) :
    (w.set_vec g v).sig.m_slot_list = w.sig.m_slot_list := by
  unfold World.set_vec
  split <;> rfl

theorem set_vec_obj_id (g : Nat) (v : List Key) (w : World) :
    (w.set_vec g v).sig.obj_id = w.sig.obj_id := by
  unfold World.set_vec
  split <;> rfl

theorem set_vec_conns (g : Nat) (v : List Key) (w : World) :
    (w.set_vec g v).conns = w.conns := by
  unfold World.set_vec
  split <;> rfl

theorem set_vec_log (g : Nat) (v : List Key) (w : World) :
    (w.set_vec g v).log = w.log := by
  unfold World.set_vec
  split <;> rfl

theorem tombstone_eq (g i : Nat) (w w1 : World) (h : w.tombstone g i = Res.ok w1) :
    ∃ v, w1 = w.set_vec g v := by
  unfold World.tombstone at h
  split at h
  · cases h
  · split at h
    · simp only [Res.ok.injEq] at h
      exact ⟨_, h.symm⟩
    · cases h

theorem compact_eq (g : Nat) (w : World) : w.compact g = w ∨ ∃ v, w.compact g = w.set_vec g v := by
  unfold World.compact
  split
  · left; rfl
  · right; exact ⟨_, rfl⟩

/-! ## What every run preserves -/

theorem run_preserves (P : World → Prop) (disp : World → Res World)
    (h_connect : ∀ key f w, P w → P (w.connect key f))
    (h_disconnect : ∀ fn obj w, P w → P (w.disconnect fn obj))
    (h_conn : ∀ idx w, P w → P (w.conn_disconnect idx))
    (h_clear : ∀ w, P w → P w.clear)
    (h_disp : ∀ w w1, disp w = Res.ok w1 → P w → P w1) :
    ∀ p w w', run disp p w = Res.ok w' → P w → P w' := by
  intro p
  induction p with
  | done =>
    intro w w' h hP
    simp only [run, Res.ok.injEq] at h
    exact h ▸ hP
  | connect key fn obj body rest _ ih =>
    intro w w' h hP
    exact ih _ _ h (h_connect _ _ _ hP)
  | disconnect fn obj rest ih =>
    intro w w' h hP
    exact ih _ _ h (h_disconnect _ _ _ hP)
  | conn_disconnect idx rest ih =>
    intro w w' h hP
    exact ih _ _ h (h_conn _ _ hP)
  | clear rest ih =>
    intro w w' h hP
    exact ih _ _ h (h_clear _ hP)
  | dispatch rest ih =>
    intro w w' h hP
    simp only [run] at h
    cases hd : disp w with
    | ok w1 =>
      rw [hd] at h
      exact ih _ _ h (h_disp _ _ hd hP)
    | fault e =>
      rw [hd] at h
      cases h

theorem loop_preserves (P : World → Prop) (call : Slot → World → Res World) (g : Nat)
    (h_invoke : ∀ k f w, slot_list_t.find k w.sig.m_slot_list = some f → P w → P (w.invoked k f))
    (h_tomb : ∀ g i w w1, w.tombstone g i = Res.ok w1 → P w → P w1)
    (h_call : ∀ f w w1, call f w = Res.ok w1 → P w → P w1) :
    ∀ ks i erased w r, loop call g ks i erased w = Res.ok r → P w → P r.2 := by
  intro ks
  induction ks with
  | nil =>
    intro i erased w r h hP
    simp only [loop, Res.ok.injEq] at h
    exact h ▸ hP
  | cons k ks ih =>
    intro i erased w r h hP
    simp only [loop] at h
    cases hf : slot_list_t.find k w.sig.m_slot_list with
    | some f =>
      rw [hf] at h
      simp only at h
      cases hc : call f (w.invoked k f) with
      | ok w1 =>
        rw [hc] at h
        exact ih _ _ _ _ h (h_call _ _ _ hc (h_invoke _ _ _ hf hP))
      | fault e =>
        rw [hc] at h
        cases h
    | none =>
      rw [hf] at h
      simp only at h
      cases ht : w.tombstone g i with
      | ok w1 =>
        rw [ht] at h
        exact ih _ _ _ _ h (h_tomb _ _ _ _ ht hP)
      | fault e =>
        rw [ht] at h
        cases h

theorem dispatch_preserves (P : World → Prop)
    (h_connect : ∀ key f w, P w → P (w.connect key f))
    (h_disconnect : ∀ fn obj w, P w → P (w.disconnect fn obj))
    (h_conn : ∀ idx w, P w → P (w.conn_disconnect idx))
    (h_clear : ∀ w, P w → P w.clear)
    (h_invoke : ∀ k f w, slot_list_t.find k w.sig.m_slot_list = some f → P w → P (w.invoked k f))
    (h_tomb : ∀ g i w w1, w.tombstone g i = Res.ok w1 → P w → P w1)
    (h_compact : ∀ g w, P w → P (w.compact g)) :
    ∀ fuel w w', dispatch fuel w = Res.ok w' → P w → P w' := by
  intro fuel
  induction fuel with
  | zero =>
    intro w w' h
    simp [dispatch] at h
  | succ n ih =>
    intro w w' h hP
    simp only [dispatch] at h
    cases hl : loop (fun f w1 => run (dispatch n) f.body w1) w.sig.obj_id w.sig.m_keys 0 false w with
    | ok r =>
      rw [hl] at h
      simp only [Res.ok.injEq] at h
      have hr : P r.2 :=
        loop_preserves P _ _ h_invoke h_tomb
          (fun f w0 w1 hc hw =>
            run_preserves P (dispatch n) h_connect h_disconnect h_conn h_clear ih f.body w0 w1 hc hw)
          _ _ _ _ _ hl hP
      rw [← h]
      by_cases he : r.1 = true
      · simp only [he, if_true]
        exact h_compact _ _ hr
      · simp only [he]
        exact hr
    | fault e =>
      rw [hl] at h
      cases h

theorem exec_preserves (P : World → Prop)
    (h_connect : ∀ key f w, P w → P (w.connect key f))
    (h_disconnect : ∀ fn obj w, P w → P (w.disconnect fn obj))
    (h_conn : ∀ idx w, P w → P (w.conn_disconnect idx))
    (h_clear : ∀ w, P w → P w.clear)
    (h_invoke : ∀ k f w, slot_list_t.find k w.sig.m_slot_list = some f → P w → P (w.invoked k f))
    (h_tomb : ∀ g i w w1, w.tombstone g i = Res.ok w1 → P w → P w1)
    (h_compact : ∀ g w, P w → P (w.compact g)) :
    ∀ fuel p w w', exec fuel p w = Res.ok w' → P w → P w' := by
  intro fuel p w w' h hP
  exact run_preserves P (dispatch fuel) h_connect h_disconnect h_conn h_clear
    (dispatch_preserves P h_connect h_disconnect h_conn h_clear h_invoke h_tomb h_compact fuel)
    p w w' h hP

/-! ## Connections made before a clear -/

theorem conn_older_connect (idx b : Nat) (key : Key) (f : Slot) (w : World)
    (h : conn_older idx b w) : conn_older idx b (w.connect key f) := by
  obtain ⟨hlt, hc⟩ := h
  refine ⟨?_, ?_⟩
  · simp only [World.connect, List.length_append, List.length_singleton]
    omega
  · intro c d hget hd
    have hget' : w.conns[idx]? = some c := by
      simp only [World.connect] at hget
      rw [List.getElem?_append_left hlt] at hget
      exact hget
    have := hc c d hget' hd
    simp only [World.connect, signal_connect_obj_id]
    exact this

theorem conn_older_disconnect (idx b fn obj : Nat) (w : World)
    (h : conn_older idx b w) : conn_older idx b (w.disconnect fn obj) := h

theorem conn_older_conn_disconnect (idx b j : Nat) (w : World)
    (h : conn_older idx b w) : conn_older idx b (w.conn_disconnect j) := by
  obtain ⟨hlt, hc⟩ := h
  unfold World.conn_disconnect
  cases hj : w.conns[j]? with
  | none => exact ⟨hlt, hc⟩
  | some cj =>
    simp only
    refine ⟨by simpa using hlt, ?_⟩
    intro c d hget hd
    simp only at hget
    have hobj : (connection.disconnect cj w.sig).2.obj_id = w.sig.obj_id := by
      unfold connection.disconnect
      cases cj.m_deleter <;> simp [deleter_run_obj_id]
    simp only [hobj]
    by_cases hij : j = idx
    · subst hij
      rw [List.getElem?_set_self (by simpa using hlt)] at hget
      simp only [Option.some.injEq] at hget
      have hcj : (connection.disconnect cj w.sig).1 = cj ∨
          (connection.disconnect cj w.sig).1.m_deleter = none := by
        unfold connection.disconnect
        cases cj.m_deleter <;> simp
      rcases hcj with hcj | hcj
      · rw [hcj] at hget
        exact hc c d (hget ▸ hj) hd
      · rw [hget] at hcj
        rw [hcj] at hd
        cases hd
    · rw [List.getElem?_set_ne hij] at hget
      exact hc c d hget hd

theorem conn_older_clear (idx : Nat) (w : World)
    (h : conn_older idx 0 w) : conn_older idx 1 w.clear := by
  obtain ⟨hlt, hc⟩ := h
  refine ⟨hlt, ?_⟩
  intro c d hget hd
  have := hc c d hget hd
  simp only [World.clear, signal.clear]
  omega

theorem conn_older_clear_keep (idx b : Nat) (w : World)
    (h : conn_older idx b w) : conn_older idx b w.clear := by
  obtain ⟨hlt, hc⟩ := h
  refine ⟨hlt, ?_⟩
  intro c d hget hd
  have := hc c d hget hd
  simp only [World.clear, signal.clear]
  omega

theorem conn_older_set_vec (idx b g : Nat) (v : List Key) (w : World)
    (h : conn_older idx b w) : conn_older idx b (w.set_vec g v) := by
  unfold conn_older
  rw [set_vec_conns, set_vec_obj_id]
  exact h

theorem conn_older_exec (idx b fuel : Nat) (p : Prog) (w w' : World)
    (hx : exec fuel p w = Res.ok w') (h : conn_older idx b w) : conn_older idx b w' := by
  refine exec_preserves (conn_older idx b) ?_ ?_ ?_ ?_ ?_ ?_ ?_ fuel p w w' hx h
  · intro key f w0 h0
    exact conn_older_connect idx b key f w0 h0
  · intro fn obj w0 h0
    exact conn_older_disconnect idx b fn obj w0 h0
  · intro j w0 h0
    exact conn_older_conn_disconnect idx b j w0 h0
  · intro w0 h0
    exact conn_older_clear_keep idx b w0 h0
  · intro k f w0 _ h0
    exact h0
  · intro g i w0 w1 ht h0
    obtain ⟨v, hv⟩ := tombstone_eq g i w0 w1 ht
    rw [hv]
    exact conn_older_set_vec idx b g v w0 h0
  · intro g w0 h0
    rcases compact_eq g w0 with hv | ⟨v, hv⟩
    · rw [hv]; exact h0
    · rw [hv]; exact conn_older_set_vec idx b g v w0 h0

theorem conn_older_new (key : Key) (f : Slot) (w : World) :
    conn_older w.conns.length 0 (w.connect key f) := by
  refine ⟨by simp [World.connect], ?_⟩
  intro c d hget hd
  simp only [World.connect, signal_connect_obj_id]
  simp only [World.connect] at hget
  rw [List.getElem?_append_right (le_refl _)] at hget
  simp only [Nat.sub_self, List.getElem?_cons_zero, Option.some.injEq] at hget
  rcases signal_connect_cases key f w.sig with ⟨_, hs⟩ | ⟨_, hs⟩
  · rw [hs] at hget
    rw [← hget] at hd
    cases hd
  · rw [hs] at hget
    rw [← hget] at hd
    simp only [Option.some.injEq] at hd
    rw [← hd]
    simp

theorem conn_disconnect_of_older (idx : Nat) (w : World) (h : conn_older idx 1 w) :
    (w.conn_disconnect idx).sig = w.sig := by
  obtain ⟨_, hc⟩ := h
  unfold World.conn_disconnect
  cases hj : w.conns[idx]? with
  | none => rfl
  | some c =>
    simp only
    unfold connection.disconnect
    cases hd : c.m_deleter with
    | none => rfl
    | some d =>
      simp only
      have := hc c d hj hd
      unfold deleter.run
      have hne : ¬ d.wp_slot = w.sig.obj_id := by omega
      simp [hne]

/-! ## A disconnected key is not called until it is connected again -/

theorem gone_scan_append (b : Key) (l : List Event) (e : Event) :
    ∀ g, gone_scan b g (l ++ [e]) = (gone_scan b g l).bind (fun g1 => gone_step b g1 e) := by
  induction l with
  | nil =>
    intro g
    simp only [List.nil_append, gone_scan, Option.some_bind]
    cases gone_step b g e <;> simp
  | cons a l ih =>
    intro g
    simp only [List.cons_append, gone_scan]
    cases gone_step b g a with
    | none => simp
    | some g1 => simp [ih]

theorem gone_inv_same (b : Key) (n : Nat) (w w1 : World) (hlog : w1.log = w.log)
    (hmap : w1.sig.m_slot_list = w.sig.m_slot_list) (h : gone_inv b n w) : gone_inv b n w1 := by
  unfold gone_inv
  rw [hlog, hmap]
  exact h

theorem gone_inv_event (b : Key) (n : Nat) (w w1 : World) (e : Event)
    (hlog : w1.log = w.log ++ [e]) (h : gone_inv b n w)
    (hstep : ∀ g, (g = true → slot_list_t.find b w.sig.m_slot_list = none) →
      ∃ g1, gone_step b g e = some g1 ∧
        (g1 = true → slot_list_t.find b w1.sig.m_slot_list = none)) :
    gone_inv b n w1 := by
  obtain ⟨hn, g, hg, hmap⟩ := h
  obtain ⟨g1, hg1, hmap1⟩ := hstep g hmap
  refine ⟨by rw [hlog]; simp; omega, g1, ?_, hmap1⟩
  rw [hlog, List.drop_append_of_le_length hn, gone_scan_append, hg]
  exact hg1

theorem gone_inv_connect (b : Key) (n : Nat) (key : Key) (f : Slot) (w : World)
    (h : gone_inv b n w) : gone_inv b n (w.connect key f) := by
  rcases signal_connect_cases key f w.sig with ⟨_, hs⟩ | ⟨hnone, hs⟩
  · refine gone_inv_same b n w _ ?_ ?_ h
    · simp [World.connect, hs]
    · simp [World.connect, hs]
  · refine gone_inv_event b n w _ (Event.connected key) ?_ h ?_
    · simp [World.connect, hs]
    · intro g hg
      refine ⟨_, rfl, ?_⟩
      intro hg1
      simp only [Bool.and_eq_true, decide_eq_true_eq] at hg1
      simp only [World.connect, hs]
      rw [find_insert_other key b f _ (Ne.symm hg1.2)]
      exact hg hg1.1

theorem gone_inv_disconnect (b : Key) (n fn obj : Nat) (w : World)
    (h : gone_inv b n w) : gone_inv b n (w.disconnect fn obj) := by
  refine gone_inv_event b n w _ (Event.erased (easy_hash fn obj)) rfl h ?_
  intro g hg
  refine ⟨_, rfl, ?_⟩
  intro hg1
  simp only [Bool.or_eq_true, decide_eq_true_eq] at hg1
  simp only [World.disconnect, signal.disconnect]
  rcases hg1 with hg1 | hg1
  · exact find_erase_none_of_none _ _ _ (hg hg1)
  · rw [hg1]; exact find_erase_self _ _

theorem gone_inv_conn_disconnect (b : Key) (n idx : Nat) (w : World)
    (h : gone_inv b n w) : gone_inv b n (w.conn_disconnect idx) := by
  unfold World.conn_disconnect
  cases hj : w.conns[idx]? with
  | none => exact h
  | some c =>
    simp only
    cases hd : c.m_deleter with
    | none =>
      refine gone_inv_same b n w _ ?_ ?_ h
      · simp
      · simp [connection.disconnect, hd]
    | some d =>
      by_cases hw : d.wp_slot = w.sig.obj_id
      · refine gone_inv_event b n w _ (Event.erased d.key) ?_ h ?_
        · simp [hw]
        · intro g hg
          refine ⟨_, rfl, ?_⟩
          intro hg1
          simp only [Bool.or_eq_true, decide_eq_true_eq] at hg1
          simp only [connection.disconnect, hd, deleter.run, hw, if_true]
          rcases hg1 with hg1 | hg1
          · exact find_erase_none_of_none _ _ _ (hg hg1)
          · rw [hg1]; exact find_erase_self _ _
      · refine gone_inv_same b n w _ ?_ ?_ h
        · simp [hw]
        · simp [connection.disconnect, hd, deleter.run, hw]

theorem gone_inv_clear (b : Key) (n : Nat) (w : World)
    (h : gone_inv b n w) : gone_inv b n w.clear := by
  obtain ⟨hn, g, hg, _⟩ := h
  exact ⟨hn, g, hg, fun _ => rfl⟩

theorem gone_inv_invoked (b : Key) (n : Nat) (k : Key) (f : Slot) (w : World)
    (hf : slot_list_t.find k w.sig.m_slot_list = some f)
    (h : gone_inv b n w) : gone_inv b n (w.invoked k f) := by
  refine gone_inv_event b n w _ (Event.invoke k f.fn f.obj) rfl h ?_
  intro g hg
  have hno : ¬ (k = b ∧ g = true) := by
    rintro ⟨hk, hgt⟩
    rw [hk, hg hgt] at hf
    cases hf
  exact ⟨g, by simp [gone_step, hno], hg⟩

theorem gone_inv_set_vec (b : Key) (n g : Nat) (v : List Key) (w : World)
    (h : gone_inv b n w) : gone_inv b n (w.set_vec g v) :=
  gone_inv_same b n w _ (set_vec_log g v w) (set_vec_slot_list g v w) h

theorem gone_inv_dispatch (b : Key) (n fuel : Nat) (w w' : World)
    (hx : dispatch fuel w = Res.ok w') (h : gone_inv b n w) : gone_inv b n w' := by
  refine dispatch_preserves (gone_inv b n) ?_ ?_ ?_ ?_ ?_ ?_ ?_ fuel w w' hx h
  · intro key f w0 h0
    exact gone_inv_connect b n key f w0 h0
  · intro fn obj w0 h0
    exact gone_inv_disconnect b n fn obj w0 h0
  · intro j w0 h0
    exact gone_inv_conn_disconnect b n j w0 h0
  · intro w0 h0
    exact gone_inv_clear b n w0 h0
  · intro k f w0 hf h0
    exact gone_inv_invoked b n k f w0 hf h0
  · intro g i w0 w1 ht h0
    obtain ⟨v, hv⟩ := tombstone_eq g i w0 w1 ht
    rw [hv]
    exact gone_inv_set_vec b n g v w0 h0
  · intro g w0 h0
    rcases compact_eq g w0 with hv | ⟨v, hv⟩
    · rw [hv]; exact h0
    · rw [hv]; exact gone_inv_set_vec b n g v w0 h0

theorem gone_scan_call (b : Key) (l : List Event) :
    ∀ (g' : Bool) (q fn obj : Nat), gone_scan b true l = some g' →
      l[q]? = some (Event.invoke b fn obj) →
      ∃ r : Nat, r < q ∧ l[r]? = some (Event.connected b) := by
  induction l with
  | nil =>
    intro g' q fn obj _ hq
    simp at hq
  | cons e l ih =>
    intro g' q fn obj hs hq
    cases q with
    | zero =>
      simp only [List.getElem?_cons_zero, Option.some.injEq] at hq
      subst hq
      simp [gone_scan, gone_step] at hs
    | succ q =>
      simp only [List.getElem?_cons_succ] at hq
      by_cases he : e = Event.connected b
      · exact ⟨0, by omega, by simp [he]⟩
      · have hs' : gone_scan b true l = some g' := by
          simp only [gone_scan] at hs
          cases e with
          | erased k => simpa [gone_step] using hs
          | connected k =>
            have hk : k ≠ b := fun hk => he (by rw [hk])
            simpa [gone_step, hk] using hs
          | invoke k fn' obj' =>
            by_cases hk : k = b
            · simp [gone_step, hk] at hs
            · simpa [gone_step, hk] using hs
        obtain ⟨r, hr, hrc⟩ := ih g' q fn obj hs' hq
        exact ⟨r + 1, by omega, by simpa using hrc⟩

theorem gone_scan_between (b : Key) (l : List Event) :
    ∀ (g g' : Bool) (p q fn obj : Nat), gone_scan b g l = some g' → p < q →
      l[p]? = some (Event.erased b) → l[q]? = some (Event.invoke b fn obj) →
      ∃ r : Nat, p < r ∧ r < q ∧ l[r]? = some (Event.connected b) := by
  induction l with
  | nil =>
    intro g g' p q fn obj _ _ hp
    simp at hp
  | cons e l ih =>
    intro g g' p q fn obj hs hpq hp hq
    cases q with
    | zero => omega
    | succ q =>
      simp only [List.getElem?_cons_succ] at hq
      simp only [gone_scan] at hs
      cases p with
      | zero =>
        simp only [List.getElem?_cons_zero, Option.some.injEq] at hp
        subst hp
        simp only [gone_step, decide_True, Bool.or_true, Option.some_bind] at hs
        obtain ⟨r, hr, hrc⟩ := gone_scan_call b l g' q fn obj hs hq
        exact ⟨r + 1, by omega, by omega, by simpa using hrc⟩
      | succ p =>
        simp only [List.getElem?_cons_succ] at hp
        cases h1 : gone_step b g e with
        | none =>
          rw [h1] at hs
          cases hs
        | some g1 =>
          rw [h1] at hs
          obtain ⟨r, hr1, hr2, hrc⟩ := ih g1 g' p q fn obj hs (by omega) hp hq
          exact ⟨r + 1, by omega, by omega, by simpa using hrc⟩

/-! ## A pass whose callables make no call back -/

theorem vec_at_self (w : World) : w.vec_at w.sig.obj_id = some w.sig.m_keys := by
  simp [World.vec_at]

theorem set_vec_self (v : List Key) (w : World) :
    w.set_vec w.sig.obj_id v = { w with sig := { w.sig with m_keys := v } } := by
  simp [World.set_vec]

theorem loop_plain (d : World → Res World) (m : slot_list_t)
    (hm : ∀ k f, slot_list_t.find k m = some f → f.body = Prog.done) :
    ∀ (ks pre : List Key) (erased : Bool) (w : World),
      w.sig.m_slot_list = m → w.sig.m_keys = pre ++ ks →
      loop (fun f w1 => run d f.body w1) w.sig.obj_id ks pre.length erased w
        = Res.ok (erased || ks.any (fun k => (slot_list_t.find k m).isNone),
            { sig := { m_slot_list := m, m_keys := pre ++ ks.map (tomb m), obj_id := w.sig.obj_id },
              conns := w.conns, retired := w.retired, log := w.log ++ calls m ks }) := by
  intro ks
  induction ks with
  | nil =>
    intro pre erased w hmap hkeys
    simp only [loop, List.any_nil, Bool.or_false, List.map_nil, calls, List.filterMap_nil,
      List.append_nil]
    rw [← hmap]
    simp only [List.append_nil] at hkeys
    rw [← hkeys]
  | cons k ks ih =>
    intro pre erased w hmap hkeys
    simp only [loop]
    cases hf : slot_list_t.find k m with
    | some f =>
      rw [hmap, hf]
      simp only [hm k f hf, run]
      have h1 := ih (pre ++ [k]) erased (w.invoked k f) hmap
        (by simp [World.invoked, hkeys])
      simp only [List.length_append, List.length_singleton] at h1
      have h2 : (w.invoked k f).sig.obj_id = w.sig.obj_id := rfl
      rw [h2] at h1
      rw [h1]
      simp [tomb, calls, hf, World.invoked]
    | none =>
      rw [hmap, hf]
      have hlt : pre.length < w.sig.m_keys.length := by
        rw [hkeys]; simp
      have ht : w.tombstone w.sig.obj_id pre.length
          = Res.ok { w with sig := { w.sig with m_keys := pre ++ 0 :: ks } } := by
        simp only [World.tombstone, vec_at_self, hlt, if_true, set_vec_self]
        rw [hkeys]
        simp
      simp only [ht]
      have h1 := ih (pre ++ [0]) true
        { w with sig := { w.sig with m_keys := pre ++ 0 :: ks } } hmap (by simp)
      simp only [List.length_append, List.length_singleton] at h1
      rw [h1]
      simp [tomb, calls, hf]

/-- The order sequence after a pass over `ks` when no callable changes the map. -/
theorem dispatch_plain (fuel : Nat) (w : World)
    (hm : ∀ k f, slot_list_t.find k w.sig.m_slot_list = some f → f.body = Prog.done) :
    dispatch (fuel + 1) w
      = Res.ok
          { sig :=
              { m_slot_list := w.sig.m_slot_list
                m_keys :=
                  if w.sig.m_keys.any (fun k => (slot_list_t.find k w.sig.m_slot_list).isNone)
                  then (w.sig.m_keys.map (tomb w.sig.m_slot_list)).filter (fun k => decide (k ≠ 0))
                  else w.sig.m_keys.map (tomb w.sig.m_slot_list)
                obj_id := w.sig.obj_id }
            conns := w.conns
            retired := w.retired
            log := w.log ++ calls w.sig.m_slot_list w.sig.m_keys } := by
  have h := loop_plain (dispatch fuel) w.sig.m_slot_list hm w.sig.m_keys [] false w rfl rfl
  simp only [List.length_nil, Bool.false_or, List.nil_append] at h
  simp only [dispatch, h]
  by_cases ha : w.sig.m_keys.any (fun k => (slot_list_t.find k w.sig.m_slot_list).isNone) = true
  · simp only [ha, if_true]
    simp [World.compact, World.vec_at, World.set_vec]
  · simp only [ha]
    simp

theorem find_of_find_erase (k k' : Key) (m : slot_list_t) (f : Slot)
    (h : slot_list_t.find k' (slot_list_t.erase k m) = some f) :
    slot_list_t.find k' m = some f := by
  by_cases hk : k' = k
  · subst hk
    rw [find_erase_self] at h
    cases h
  · rw [find_erase_other k k' m hk] at h
    exact h

theorem plain_inv_new : plain_inv World.new := by
  intro k f h
  simp [World.new, signal.new, slot_list_t.find] at h

theorem plain_inv_connect (key : Key) (f : Slot) (w : World) (hkey : key ≠ 0)
    (hbody : f.body = Prog.done) (h : plain_inv w) : plain_inv (w.connect key f) := by
  intro k g hg
  rcases signal_connect_cases key f w.sig with ⟨_, hs⟩ | ⟨hnone, hs⟩
  · simp only [World.connect, hs] at hg ⊢
    exact h k g hg
  · simp only [World.connect, hs] at hg ⊢
    by_cases hk : k = key
    · subst hk
      rw [find_insert_self k f _ hnone] at hg
      simp only [Option.some.injEq] at hg
      subst hg
      exact ⟨hkey, by simp, hbody⟩
    · rw [find_insert_other key k f _ hk] at hg
      obtain ⟨h1, h2, h3⟩ := h k g hg
      exact ⟨h1, by simp [h2], h3⟩

theorem plain_inv_disconnect (fn obj : Nat) (w : World) (h : plain_inv w) :
    plain_inv (w.disconnect fn obj) := by
  intro k g hg
  exact h k g (find_of_find_erase _ _ _ _ hg)

theorem plain_inv_conn_disconnect (idx : Nat) (w : World) (h : plain_inv w) :
    plain_inv (w.conn_disconnect idx) := by
  unfold World.conn_disconnect
  cases hj : w.conns[idx]? with
  | none => exact h
  | some c =>
    simp only
    intro k g hg
    simp only [connection.disconnect] at hg ⊢
    cases hd : c.m_deleter with
    | none =>
      rw [hd] at hg
      exact h k g hg
    | some d =>
      rw [hd] at hg
      simp only [deleter.run] at hg ⊢
      by_cases hw : d.wp_slot = w.sig.obj_id
      · simp only [hw, if_true] at hg ⊢
        exact h k g (find_of_find_erase _ _ _ _ hg)
      · simp only [hw, if_false] at hg ⊢
        exact h k g hg

theorem plain_inv_clear (w : World) : plain_inv w.clear := by
  intro k f h
  simp [World.clear, signal.clear, slot_list_t.find] at h

theorem plain_inv_dispatch (fuel : Nat) (w w' : World) (h : plain_inv w)
    (hd : dispatch fuel w = Res.ok w') : plain_inv w' := by
  cases fuel with
  | zero => simp [dispatch] at hd
  | succ n =>
    rw [dispatch_plain n w (fun k f hf => (h k f hf).2.2)] at hd
    simp only [Res.ok.injEq] at hd
    rw [← hd]
    intro k f hf
    simp only at hf
    obtain ⟨h1, h2, h3⟩ := h k f hf
    refine ⟨h1, ?_, h3⟩
    have hmem : k ∈ w.sig.m_keys.map (tomb w.sig.m_slot_list) :=
      List.mem_map.mpr ⟨k, h2, by simp [tomb, hf]⟩
    simp only
    split
    · exact List.mem_filter.mpr ⟨hmem, by simpa using h1⟩
    · exact hmem

theorem plain_inv_run (fuel : Nat) :
    ∀ (p : Prog) (w w' : World), Prog.plain p = true → plain_inv w →
      exec fuel p w = Res.ok w' → plain_inv w' := by
  intro p
  induction p with
  | done =>
    intro w w' _ h hx
    simp only [exec, run, Res.ok.injEq] at hx
    exact hx ▸ h
  | connect key fn obj body rest _ ih =>
    intro w w' hp h hx
    simp only [Prog.plain, Bool.and_eq_true, decide_eq_true_eq] at hp
    exact ih _ _ hp.2 (plain_inv_connect key _ w hp.1.1 hp.1.2 h) hx
  | disconnect fn obj rest ih =>
    intro w w' hp h hx
    exact ih _ _ hp (plain_inv_disconnect fn obj w h) hx
  | conn_disconnect idx rest ih =>
    intro w w' hp h hx
    exact ih _ _ hp (plain_inv_conn_disconnect idx w h) hx
  | clear rest ih =>
    intro w w' hp h hx
    exact ih _ _ hp (plain_inv_clear w) hx
  | dispatch rest ih =>
    intro w w' hp h hx
    simp only [exec, run] at hx
    cases hd : dispatch fuel w with
    | ok w1 =>
      rw [hd] at hx
      exact ih _ _ hp (plain_inv_dispatch fuel w w1 h hd) hx
    | fault e =>
      rw [hd] at hx
      cases hx

theorem plain_inv_of_reachable (w : World) (h : reachable_plain w) : plain_inv w := by
  obtain ⟨fuel, p, hp, hx⟩ := h
  exact plain_inv_run fuel p _ _ hp plain_inv_new hx

theorem mem_calls (m : slot_list_t) (ks : List Key) (k fn obj : Nat) :
    Event.invoke k fn obj ∈ calls m ks ↔
      k ∈ ks ∧ ∃ f, slot_list_t.find k m = some f ∧ f.fn = fn ∧ f.obj = obj := by
  simp only [calls, List.mem_filterMap, Option.map_eq_some']
  constructor
  · rintro ⟨a, ha, f, hf, he⟩
    simp only [Event.invoke.injEq] at he
    obtain ⟨h1, h2, h3⟩ := he
    subst h1
    exact ⟨ha, f, hf, h2, h3⟩
  · rintro ⟨hk, f, hf, h2, h3⟩
    exact ⟨k, hk, f, hf, by simp [h2, h3]⟩

/-! ## The run of `main()` -/

/-- The model on the calls of `main()`: steps 1 and 3 invoke `fn1` then `fn`,
steps 2 and 4 invoke `fn1` only, step 5 invokes nothing, and the signal ends
empty. -/
theorem main_calls_run :
    exec 1 main_calls World.new
      = Res.ok
          { sig := { m_slot_list := [], m_keys := [], obj_id := 0 }
            conns := [{ m_deleter := none }, { m_deleter := none },
                      { m_deleter := some { wp_slot := 0, key := 110 } }]
            retired := []
            log := [Event.connected 111, Event.connected 110,
                    Event.invoke 111 11 100, Event.invoke 110 10 100,
                    Event.erased 110,
                    Event.invoke 111 11 100,
                    Event.connected 110,
                    Event.invoke 111 11 100, Event.invoke 110 10 100,
                    Event.erased 110,
                    Event.invoke 111 11 100,
                    Event.erased 111] } := by
  decide

/-! ## Dispatch, connect, disconnect, connections and keys -/

/-- C1: from a reachable world (plain code: keys other than 0, callables that
make no call back) a dispatch pass completes, and the callables it invokes are
exactly those stored in the slot map when the pass begins: a callable is invoked
under key `k` if and only if the slot map holds it under `k`. -/
theorem dispatch_invokes_connected (w : World) (hr : reachable_plain w) (fuel : Nat) :
    ∃ w', dispatch (fuel + 1) w = Res.ok w' ∧
      ∀ k fn obj, Event.invoke k fn obj ∈ events_since w w' ↔
        ∃ f, slot_list_t.find k w.sig.m_slot_list = some f ∧ f.fn = fn ∧ f.obj = obj := by
  have hi := plain_inv_of_reachable w hr
  refine ⟨_, dispatch_plain fuel w (fun k f hf => (hi k f hf).2.2), ?_⟩
  intro k fn obj
  simp only [events_since, List.drop_left, mem_calls]
  constructor
  · rintro ⟨_, h⟩
    exact h
  · rintro ⟨f, hf, h2, h3⟩
    exact ⟨(hi k f hf).2.1, f, hf, h2, h3⟩

/-- C1, at the world after the first two calls of `main()`. -/
theorem dispatch_invokes_connected_witness :
    reachable_plain main_world ∧
    ∃ w', dispatch 1 main_world = Res.ok w' ∧
      ∀ k fn obj, Event.invoke k fn obj ∈ events_since main_world w' ↔
        ∃ f, slot_list_t.find k main_world.sig.m_slot_list = some f ∧ f.fn = fn ∧ f.obj = obj :=
  ⟨⟨1, main_connects, by decide, by decide⟩,
   dispatch_invokes_connected main_world ⟨1, main_connects, by decide, by decide⟩ 0⟩

/-- C2, evaluated: after `order_calls` the registration of `(2, 4)` (key 6) in
force is older than the one of `(1, 4)` (key 5) in force, yet the order sequence
is `[5, 6, 5]` and the pass invokes `(1, 4)` before `(2, 4)`. -/
theorem order_broken_by_stale_key :
    exec 1 order_calls World.new = Res.ok order_world ∧
    order_world.sig.m_keys = [5, 6, 5] ∧
    dispatch 1 order_world
      = Res.ok { order_world with
          log := order_world.log ++
            [Event.invoke 5 1 4, Event.invoke 6 2 4, Event.invoke 5 1 4] } := by
  decide

/-- C3, evaluated: `reconnect_calls` is plain code, after it the key 5 is in the
slot map and occurs twice in the order sequence, and the pass invokes its
callable twice. -/
theorem reconnected_key_listed_twice :
    Prog.plain reconnect_calls = true ∧
    exec 1 reconnect_calls World.new = Res.ok reconnect_world ∧
    slot_list_t.find 5 reconnect_world.sig.m_slot_list
      = some { fn := 1, obj := 4, body := Prog.done } ∧
    reconnect_world.sig.m_keys.count 5 = 2 ∧
    dispatch 1 reconnect_world
      = Res.ok { reconnect_world with
          log := reconnect_world.log ++ [Event.invoke 5 1 4, Event.invoke 5 1 4] } := by
  decide

/-- C4: connect with a key that is already in the slot map returns a connection
with an empty deleter, whose disconnect changes nothing in any state, and leaves
the signal (slot map with the stored callable, order sequence) as it was; with a
key that is not in the map it stores the callable under the key, leaves the
other entries alone and appends the key at the end of the order sequence. -/
theorem connect_present_or_absent (key : Key) (f : Slot) (s : signal) :
    (slot_list_t.find key s.m_slot_list ≠ none →
      signal.connect (key, f) s = ({ m_deleter := none }, s) ∧
      (∀ s' : signal, connection.disconnect (signal.connect (key, f) s).1 s'
        = ((signal.connect (key, f) s).1, s'))) ∧
    (slot_list_t.find key s.m_slot_list = none →
      slot_list_t.find key (signal.connect (key, f) s).2.m_slot_list = some f ∧
      (∀ k, k ≠ key → slot_list_t.find k (signal.connect (key, f) s).2.m_slot_list
        = slot_list_t.find k s.m_slot_list) ∧
      (signal.connect (key, f) s).2.m_keys = s.m_keys ++ [key]) := by
  constructor
  · intro h
    obtain ⟨g, hg⟩ := Option.ne_none_iff_exists'.mp h
    have hc : signal.connect (key, f) s = ({ m_deleter := none }, s) := by
      simp [signal.connect, slot_list_t.emplace, hg]
    refine ⟨hc, ?_⟩
    intro s'
    rw [hc]
    simp [connection.disconnect]
  · intro h
    have hc : signal.connect (key, f) s =
        ({ m_deleter := some { wp_slot := s.obj_id, key := key } },
         { s with m_slot_list := slot_list_t.insert key f s.m_slot_list,
                  m_keys := s.m_keys ++ [key] }) := by
      simp [signal.connect, slot_list_t.emplace, h]
    rw [hc]
    refine ⟨find_insert_self key f _ h, ?_, rfl⟩
    intro k hk
    exact find_insert_other key k f _ hk

/-- C4, at a concrete signal: the key 7 is present, the key 9 is not. -/
theorem connect_present_or_absent_witness :
    signal.connect (7, { fn := 2, obj := 0, body := Prog.done })
        { m_slot_list := [(7, { fn := 1, obj := 0, body := Prog.done })], m_keys := [7], obj_id := 0 }
      = ({ m_deleter := none },
         { m_slot_list := [(7, { fn := 1, obj := 0, body := Prog.done })], m_keys := [7], obj_id := 0 }) ∧
    (signal.connect (9, { fn := 2, obj := 0, body := Prog.done })
        { m_slot_list := [(7, { fn := 1, obj := 0, body := Prog.done })], m_keys := [7], obj_id := 0 }).2.m_keys
      = [7] ++ [9] :=
  ⟨((connect_present_or_absent 7 { fn := 2, obj := 0, body := Prog.done }
      { m_slot_list := [(7, { fn := 1, obj := 0, body := Prog.done })], m_keys := [7], obj_id := 0 }).1
      (by decide)).1,
   ((connect_present_or_absent 9 { fn := 2, obj := 0, body := Prog.done }
      { m_slot_list := [(7, { fn := 1, obj := 0, body := Prog.done })], m_keys := [7], obj_id := 0 }).2
      (by decide)).2.2⟩

/-- C5, evaluated: after `late_connect_calls` the key 6 is not in the slot map
but still in the order sequence; in the pass the callable under key 5 connects
key 6, and the callable connected under key 6 is invoked in that same pass. -/
theorem connected_in_pass_invoked_in_pass :
    exec 1 late_connect_calls World.new = Res.ok late_connect_world ∧
    slot_list_t.find 6 late_connect_world.sig.m_slot_list = none ∧
    late_connect_world.sig.m_keys = [5, 6] ∧
    dispatch 1 late_connect_world = Res.ok late_connect_after ∧
    events_since late_connect_world late_connect_after
      = [Event.invoke 5 1 4, Event.connected 6, Event.invoke 6 2 4] := by
  decide

/-- C6: in the events of one dispatch pass, once an invoked slot has erased key
`b` (by the direct disconnect or through a connection) and for as long as `b` is
not connected again, no callable is invoked under `b`: a slot disconnected
during the pass and not connected again before its position of the snapshot is
reached is not invoked there. -/
theorem disconnected_not_invoked (fuel : Nat) (w w' : World) (b : Key)
    (h : dispatch fuel w = Res.ok w') (p j : Nat)
    (hp : (events_since w w')[p]? = some (Event.erased b))
    (hno : ∀ r : Nat, p < r → r < j → (events_since w w')[r]? ≠ some (Event.connected b))
    (q fn obj : Nat) (hpq : p < q) (hqj : q ≤ j) :
    (events_since w w')[q]? ≠ some (Event.invoke b fn obj) := by
  intro hq
  have h0 : gone_inv b w.log.length w :=
    ⟨le_refl _, false, by simp [gone_scan], by simp⟩
  obtain ⟨_, g, hg, _⟩ := gone_inv_dispatch b w.log.length fuel w w' h h0
  obtain ⟨r, hr1, hr2, hrc⟩ := gone_scan_between b _ false g p q fn obj hg hpq hp hq
  exact hno r hr1 (by omega) hrc

/-- C6, at `drop_world`: the callable under key 5 erases key 6, which is not
connected again; the next call of the pass is the one under key 7, not 6. -/
theorem disconnected_not_invoked_witness :
    dispatch 1 drop_world = Res.ok drop_after ∧
    (events_since drop_world drop_after)[1]? = some (Event.erased 6) ∧
    (events_since drop_world drop_after)[2]? ≠ some (Event.invoke 6 2 4) :=
  ⟨by decide, by decide,
   disconnected_not_invoked 1 drop_world drop_after 6 (by decide) 1 3 (by decide)
     (fun r h1 h2 => by
       have hr : r = 2 := by omega
       subst hr
       decide)
     2 2 4 (by decide) (by decide)⟩

/-- C7: after one call of `connection::disconnect()` the deleter is cleared, and
a further call changes neither the connection nor the registry, whatever state
the registry is in by then (in particular the state the first call left, and
any state in which the key has been connected again). -/
theorem connection_disconnect_twice (c : connection) (s : signal) :
    (connection.disconnect c s).1.m_deleter = none ∧
    connection.disconnect (connection.disconnect c s).1 (connection.disconnect c s).2
      = connection.disconnect c s ∧
    ∀ s' : signal, connection.disconnect (connection.disconnect c s).1 s'
      = ((connection.disconnect c s).1, s') := by
  have h1 : (connection.disconnect c s).1.m_deleter = none := by
    unfold connection.disconnect
    cases hc : c.m_deleter <;> simp [hc]
  have h3 : ∀ s' : signal, connection.disconnect (connection.disconnect c s).1 s'
      = ((connection.disconnect c s).1, s') := by
    intro s'
    have h := h1
    revert h
    generalize (connection.disconnect c s).1 = c1
    intro h
    simp [connection.disconnect, h]
  exact ⟨h1, h3 _, h3⟩

/-- C8: a connection returned by connect, any calls, a clear, any further calls
(connecting the same key again among them): disconnect on that connection then
leaves the signal (slot map, order sequence, registry identity) as it is. -/
theorem disconnect_after_clear (fuel : Nat) (p1 p2 : Prog) (key : Key) (f : Slot)
    (w0 w2 w3 : World)
    (h1 : exec fuel p1 (w0.connect key f) = Res.ok w2)
    (h2 : exec fuel p2 w2.clear = Res.ok w3) :
    (w3.conn_disconnect w0.conns.length).sig = w3.sig := by
  have ha := conn_older_new key f w0
  have hb := conn_older_exec _ _ fuel p1 _ _ h1 ha
  have hc := conn_older_clear _ _ hb
  have hd := conn_older_exec _ _ fuel p2 _ _ h2 hc
  exact conn_disconnect_of_older _ _ hd

/-- C8, at a new signal: key 5 is connected, the signal is cleared, key 5 is
connected again; disconnect on the first connection leaves the signal alone. -/
theorem disconnect_after_clear_witness :
    ((((World.new.connect 5 { fn := 1, obj := 4, body := Prog.done }).clear).connect 5
        { fn := 1, obj := 4, body := Prog.done }).conn_disconnect 0).sig
      = (((World.new.connect 5 { fn := 1, obj := 4, body := Prog.done }).clear).connect 5
        { fn := 1, obj := 4, body := Prog.done }).sig :=
  disconnect_after_clear 1 Prog.done (Prog.connect 5 1 4 Prog.done Prog.done) 5
    { fn := 1, obj := 4, body := Prog.done } World.new
    (World.new.connect 5 { fn := 1, obj := 4, body := Prog.done })
    (((World.new.connect 5 { fn := 1, obj := 4, body := Prog.done }).clear).connect 5
      { fn := 1, obj := 4, body := Prog.done })
    (by decide) (by decide)

/-- C9: the key is the xor of the receiver address and the pointer word, the
same function in `easy_bind` and in the direct disconnect; equal pairs give
equal keys; with the callable fixed, two receivers give the same key only if
they are the same; with the receiver fixed, two pointer words give the same key
only if they are the same. -/
theorem easy_hash_separates (word word' obj obj' : Nat) (body : Prog) (s : signal) :
    (easy_bind word obj body).1 = easy_hash word obj ∧
    (signal.disconnect word obj s).m_slot_list
      = slot_list_t.erase (easy_hash word obj) s.m_slot_list ∧
    ((word, obj) = (word', obj') → easy_hash word obj = easy_hash word' obj') ∧
    (easy_hash word obj = easy_hash word obj' ↔ obj = obj') ∧
    (easy_hash word obj = easy_hash word' obj ↔ word = word') := by
  refine ⟨rfl, rfl, ?_, ?_, ?_⟩
  · intro h
    cases h
    rfl
  · exact Nat.xor_left_inj
  · exact Nat.xor_right_inj

/-- C9, at concrete addresses. -/
theorem easy_hash_separates_witness : easy_hash 10 100 = easy_hash 10 100 :=
  (easy_hash_separates 10 10 100 100 Prog.done signal.new).2.2.1 rfl

/-- C10: the direct disconnect erases the key that connect derives for the same
pair: that key is absent afterwards, every other key maps to what it mapped to
before, the order sequence and the identity of the registry are untouched, and
a signal that does not hold the key is returned as it was. -/
theorem disconnect_direct_frame (fn obj : Nat) (body : Prog) (s : signal) :
    slot_list_t.find (easy_bind fn obj body).1 (signal.disconnect fn obj s).m_slot_list = none ∧
    (∀ k, k ≠ (easy_bind fn obj body).1 →
      slot_list_t.find k (signal.disconnect fn obj s).m_slot_list
        = slot_list_t.find k s.m_slot_list) ∧
    (signal.disconnect fn obj s).m_keys = s.m_keys ∧
    (signal.disconnect fn obj s).obj_id = s.obj_id ∧
    (slot_list_t.find (easy_bind fn obj body).1 s.m_slot_list = none →
      signal.disconnect fn obj s = s) := by
  refine ⟨find_erase_self _ _, ?_, rfl, rfl, ?_⟩
  · intro k hk
    exact find_erase_other _ k _ hk
  · intro h
    have he : slot_list_t.erase (easy_hash fn obj) s.m_slot_list = s.m_slot_list :=
      erase_of_find_none _ _ h
    simp [signal.disconnect, he]

/-- C10, at a concrete signal: disconnecting a pair that is not connected. -/
theorem disconnect_direct_frame_witness :
    signal.disconnect 10 100
        { m_slot_list := [(7, { fn := 1, obj := 0, body := Prog.done })], m_keys := [7, 110], obj_id := 0 }
      = { m_slot_list := [(7, { fn := 1, obj := 0, body := Prog.done })], m_keys := [7, 110], obj_id := 0 } :=
  (disconnect_direct_frame 10 100 Prog.done
    { m_slot_list := [(7, { fn := 1, obj := 0, body := Prog.done })], m_keys := [7, 110], obj_id := 0 }).2.2.2.2
    (by decide)

/-! ## Scoped connections: the count agrees with `connection::disconnect` -/

theorem disconnect_counted_eq (c : connection) (s : signal) (runs : Nat) :
    (connection.disconnect_counted c s runs).1 = (connection.disconnect c s).1 ∧
    (connection.disconnect_counted c s runs).2.1 = (connection.disconnect c s).2 := by
  unfold connection.disconnect_counted connection.disconnect
  cases c.m_deleter <;> exact ⟨rfl, rfl⟩

/-- C11: a wrapper that holds a connection with a disposal action. Destroyed
without an explicit disconnect, the destructor runs the action: one run in
total. Disconnected explicitly first (one run), then destroyed in whatever state
the signal is in by then, the destructor runs nothing and changes nothing: still
one run in total. -/
theorem scoped_destroy_runs_once (d : deleter) (s s' : signal) :
    scoped_connection.destroy { m_deleter := some d } s 0 = (d.run s, 1) ∧
    (scoped_connection.disconnect { m_deleter := some d } s 0).2 = (d.run s, 1) ∧
    scoped_connection.destroy (scoped_connection.disconnect { m_deleter := some d } s 0).1 s'
        (scoped_connection.disconnect { m_deleter := some d } s 0).2.2
      = (s', 1) := by
  refine ⟨rfl, rfl, rfl⟩

/-- C12: a wrapper that holds a connection made for the current registry is
assigned a connection, or move-assigned another wrapper. The disposal action of
the connection held before runs, once, on the signal as it was (its key is not
in the slot map afterwards); no other action runs; the wrapper then holds the
deleter of the right-hand side, untouched. -/
theorem scoped_assign_disposes_old (d : deleter) (rhs : connection) (s : signal)
    (hlive : d.wp_slot = s.obj_id) :
    (scoped_connection.assign { m_deleter := some d } rhs s 0).2.2 = (d.run s, 1) ∧
    slot_list_t.find d.key
      (scoped_connection.assign { m_deleter := some d } rhs s 0).2.2.1.m_slot_list = none ∧
    (scoped_connection.assign { m_deleter := some d } rhs s 0).1.m_deleter = rhs.m_deleter ∧
    (scoped_connection.move_assign { m_deleter := some d } { toconnection := rhs } s 0).2.2
      = (d.run s, 1) ∧
    slot_list_t.find d.key
      (scoped_connection.move_assign { m_deleter := some d } { toconnection := rhs } s 0).2.2.1.m_slot_list
        = none ∧
    (scoped_connection.move_assign { m_deleter := some d } { toconnection := rhs } s 0).1.m_deleter
      = rhs.m_deleter := by
  have hfind : slot_list_t.find d.key (d.run s).m_slot_list = none := by
    simp only [deleter.run, hlive, if_true]
    exact find_erase_self _ _
  exact ⟨rfl, hfind, rfl, rfl, hfind, rfl⟩

/-- C12, at the signal of `main_world`: the wrapper holds the connection of key
111 and is assigned the one of key 110. -/
theorem scoped_assign_disposes_old_witness :
    (scoped_connection.assign { m_deleter := some { wp_slot := 0, key := 111 } }
        { m_deleter := some { wp_slot := 0, key := 110 } } main_world.sig 0).2.2
      = (deleter.run { wp_slot := 0, key := 111 } main_world.sig, 1) ∧
    (scoped_connection.assign { m_deleter := some { wp_slot := 0, key := 111 } }
        { m_deleter := some { wp_slot := 0, key := 110 } } main_world.sig 0).1.m_deleter
      = some { wp_slot := 0, key := 110 } :=
  ⟨(scoped_assign_disposes_old { wp_slot := 0, key := 111 }
      { m_deleter := some { wp_slot := 0, key := 110 } } main_world.sig (by decide)).1,
   (scoped_assign_disposes_old { wp_slot := 0, key := 111 }
      { m_deleter := some { wp_slot := 0, key := 110 } } main_world.sig (by decide)).2.2.1⟩

/-! ## The order sequence after a pass whose callables make no call back -/

theorem filter_tomb (m : slot_list_t) (hm : ∀ k f, slot_list_t.find k m = some f → k ≠ 0) :
    ∀ ks : List Key, (ks.map (tomb m)).filter (fun k => decide (k ≠ 0))
      = ks.filter (fun k => (slot_list_t.find k m).isSome) := by
  intro ks
  induction ks with
  | nil => rfl
  | cons k ks ih =>
    rw [List.map_cons, List.filter_cons, List.filter_cons, ih]
    cases hf : slot_list_t.find k m with
    | none => simp [tomb, hf]
    | some f =>
      have hk := hm k f hf
      simp [tomb, hf, hk]

theorem map_tomb_of_all_present (m : slot_list_t) :
    ∀ ks : List Key, ks.any (fun k => (slot_list_t.find k m).isNone) = false →
      ks.map (tomb m) = ks ∧ ks.filter (fun k => (slot_list_t.find k m).isSome) = ks := by
  intro ks
  induction ks with
  | nil => intro _; exact ⟨rfl, rfl⟩
  | cons k ks ih =>
    intro h
    simp only [List.any_cons, Bool.or_eq_false_iff] at h
    obtain ⟨h1, h2⟩ := ih h.2
    cases hf : slot_list_t.find k m with
    | none => simp [hf] at h
    | some f => simp [tomb, hf, List.filter_cons, h1, h2]

/-- C13: in a state whose slot-map keys are all other than 0 and whose callables
make no call back, a dispatch pass completes, leaves the slot map as it is, and
leaves as order sequence the one before the pass filtered to the keys that are
in the slot map (`List.filter` keeps order and multiplicity); when every listed
key is in the map the order sequence is the one before the pass. -/
theorem dispatch_compacts_order (fuel : Nat) (w : World)
    (h : ∀ k f, slot_list_t.find k w.sig.m_slot_list = some f → k ≠ 0 ∧ f.body = Prog.done) :
    ∃ w', dispatch (fuel + 1) w = Res.ok w' ∧
      w'.sig.m_slot_list = w.sig.m_slot_list ∧
      w'.sig.m_keys
        = w.sig.m_keys.filter (fun k => (slot_list_t.find k w.sig.m_slot_list).isSome) ∧
      ((∀ k, k ∈ w.sig.m_keys → slot_list_t.find k w.sig.m_slot_list ≠ none) →
        w'.sig.m_keys = w.sig.m_keys) := by
  refine ⟨_, dispatch_plain fuel w (fun k f hf => (h k f hf).2), rfl, ?_, ?_⟩
  · simp only
    by_cases ha : w.sig.m_keys.any (fun k => (slot_list_t.find k w.sig.m_slot_list).isNone) = true
    · simp only [ha, if_true]
      exact filter_tomb _ (fun k f hf => (h k f hf).1) _
    · simp only [ha]
      have hb := map_tomb_of_all_present w.sig.m_slot_list w.sig.m_keys (by simpa using ha)
      rw [hb.1, hb.2]
      simp
  · intro hall
    have ha : w.sig.m_keys.any (fun k => (slot_list_t.find k w.sig.m_slot_list).isNone) = false := by
      rw [List.any_eq_false]
      intro k hk
      have := hall k hk
      cases hf : slot_list_t.find k w.sig.m_slot_list with
      | none => exact absurd hf this
      | some f => simp
    simp only [ha]
    exact (map_tomb_of_all_present _ _ ha).1

/-- C13, at the world of `main()` after `conn2.disconnect()`: key 110 is listed
but not in the map, and the pass leaves `[111]`. -/
theorem dispatch_compacts_order_witness :
    ∃ w', dispatch 1 (main_world.conn_disconnect 1) = Res.ok w' ∧
      w'.sig.m_slot_list = (main_world.conn_disconnect 1).sig.m_slot_list ∧
      w'.sig.m_keys = [111] :=
  (dispatch_compacts_order 0 (main_world.conn_disconnect 1)
    (by
      intro k f hf
      have hm : (main_world.conn_disconnect 1).sig.m_slot_list
          = [(111, { fn := 11, obj := 100, body := Prog.done })] := by decide
      rw [hm] at hf
      simp only [slot_list_t.find] at hf
      split at hf
      · simp only [Option.some.injEq] at hf
        subst hf
        rename_i hk
        refine ⟨?_, rfl⟩
        intro h0
        rw [h0] at hk
        exact absurd hk (by decide)
      · cases hf)).imp
    (fun _ hw => ⟨hw.1, hw.2.1, hw.2.2.1.trans (by decide)⟩)

/-! ## After a clear, keys are looked up in the new map -/

theorem absent_inv_same (b : Key) (n : Nat) (w w1 : World) (hlog : w1.log = w.log)
    (hmap : slot_list_t.find b w.sig.m_slot_list = none →
      slot_list_t.find b w1.sig.m_slot_list = none)
    (h : absent_inv b n w) : absent_inv b n w1 := by
  obtain ⟨hn, hi⟩ := h
  refine ⟨by rw [hlog]; exact hn, ?_⟩
  rw [hlog]
  intro hc
  exact ⟨hmap (hi hc).1, (hi hc).2⟩

theorem absent_inv_event (b : Key) (n : Nat) (w w1 : World) (e : Event)
    (hlog : w1.log = w.log ++ [e]) (h : absent_inv b n w)
    (hstep : e ≠ Event.connected b → slot_list_t.find b w.sig.m_slot_list = none →
      slot_list_t.find b w1.sig.m_slot_list = none ∧ ∀ fn obj, e ≠ Event.invoke b fn obj) :
    absent_inv b n w1 := by
  obtain ⟨hn, hi⟩ := h
  refine ⟨by rw [hlog]; simp; omega, ?_⟩
  rw [hlog, List.drop_append_of_le_length hn]
  intro hc
  simp only [List.mem_append, List.mem_singleton, not_or] at hc
  obtain ⟨h1, h2⟩ := hi hc.1
  obtain ⟨h3, h4⟩ := hstep (fun he => hc.2 he.symm) h1
  refine ⟨h3, ?_⟩
  intro fn obj hmem
  simp only [List.mem_append, List.mem_singleton] at hmem
  rcases hmem with hmem | hmem
  · exact h2 fn obj hmem
  · exact h4 fn obj hmem.symm

theorem absent_inv_connect (b : Key) (n : Nat) (key : Key) (f : Slot) (w : World)
    (h : absent_inv b n w) : absent_inv b n (w.connect key f) := by
  rcases signal_connect_cases key f w.sig with ⟨_, hs⟩ | ⟨_, hs⟩
  · refine absent_inv_same b n w _ ?_ ?_ h
    · simp [World.connect, hs]
    · simp [World.connect, hs]
  · refine absent_inv_event b n w _ (Event.connected key) ?_ h ?_
    · simp [World.connect, hs]
    · intro hne hnone
      have hk : b ≠ key := fun hk => hne (by rw [hk])
      refine ⟨?_, fun fn obj => by simp⟩
      simp only [World.connect, hs]
      rw [find_insert_other key b f _ hk]
      exact hnone

theorem absent_inv_disconnect (b : Key) (n fn obj : Nat) (w : World)
    (h : absent_inv b n w) : absent_inv b n (w.disconnect fn obj) := by
  refine absent_inv_event b n w _ (Event.erased (easy_hash fn obj)) rfl h ?_
  intro _ hnone
  exact ⟨find_erase_none_of_none _ _ _ hnone, fun fn obj => by simp⟩

theorem absent_inv_conn_disconnect (b : Key) (n idx : Nat) (w : World)
    (h : absent_inv b n w) : absent_inv b n (w.conn_disconnect idx) := by
  unfold World.conn_disconnect
  cases hj : w.conns[idx]? with
  | none => exact h
  | some c =>
    simp only
    cases hd : c.m_deleter with
    | none =>
      refine absent_inv_same b n w _ ?_ ?_ h
      · simp
      · simp [connection.disconnect, hd]
    | some d =>
      by_cases hw : d.wp_slot = w.sig.obj_id
      · refine absent_inv_event b n w _ (Event.erased d.key) ?_ h ?_
        · simp [hw]
        · intro _ hnone
          refine ⟨?_, fun fn obj => by simp⟩
          simp only [connection.disconnect, hd, deleter.run, hw, if_true]
          exact find_erase_none_of_none _ _ _ hnone
      · refine absent_inv_same b n w _ ?_ ?_ h
        · simp [hw]
        · simp [connection.disconnect, hd, deleter.run, hw]

theorem absent_inv_clear (b : Key) (n : Nat) (w : World)
    (h : absent_inv b n w) : absent_inv b n w.clear :=
  absent_inv_same b n w _ rfl (fun _ => rfl) h

theorem absent_inv_invoked (b : Key) (n : Nat) (k : Key) (f : Slot) (w : World)
    (hf : slot_list_t.find k w.sig.m_slot_list = some f)
    (h : absent_inv b n w) : absent_inv b n (w.invoked k f) := by
  refine absent_inv_event b n w _ (Event.invoke k f.fn f.obj) rfl h ?_
  intro _ hnone
  refine ⟨hnone, ?_⟩
  intro fn obj he
  simp only [Event.invoke.injEq] at he
  rw [he.1, hnone] at hf
  cases hf

theorem absent_inv_set_vec (b : Key) (n g : Nat) (v : List Key) (w : World)
    (h : absent_inv b n w) : absent_inv b n (w.set_vec g v) :=
  absent_inv_same b n w _ (set_vec_log g v w)
    (fun hnone => by rw [set_vec_slot_list]; exact hnone) h

theorem absent_inv_tombstone (b : Key) (n g i : Nat) (w w1 : World)
    (ht : w.tombstone g i = Res.ok w1) (h : absent_inv b n w) : absent_inv b n w1 := by
  obtain ⟨v, hv⟩ := tombstone_eq g i w w1 ht
  rw [hv]
  exact absent_inv_set_vec b n g v w h

theorem absent_inv_compact (b : Key) (n g : Nat) (w : World)
    (h : absent_inv b n w) : absent_inv b n (w.compact g) := by
  rcases compact_eq g w with hv | ⟨v, hv⟩
  · rw [hv]; exact h
  · rw [hv]; exact absent_inv_set_vec b n g v w h

theorem absent_inv_dispatch (b : Key) (n fuel : Nat) (w w' : World)
    (hx : dispatch fuel w = Res.ok w') (h : absent_inv b n w) : absent_inv b n w' :=
  dispatch_preserves (absent_inv b n)
    (fun key f w0 h0 => absent_inv_connect b n key f w0 h0)
    (fun fn obj w0 h0 => absent_inv_disconnect b n fn obj w0 h0)
    (fun j w0 h0 => absent_inv_conn_disconnect b n j w0 h0)
    (fun w0 h0 => absent_inv_clear b n w0 h0)
    (fun k f w0 hf h0 => absent_inv_invoked b n k f w0 hf h0)
    (fun g i w0 w1 ht h0 => absent_inv_tombstone b n g i w0 w1 ht h0)
    (fun g w0 h0 => absent_inv_compact b n g w0 h0)
    fuel w w' hx h

theorem absent_inv_run (b : Key) (n fuel : Nat) (p : Prog) (w w' : World)
    (hx : run (dispatch fuel) p w = Res.ok w') (h : absent_inv b n w) : absent_inv b n w' :=
  run_preserves (absent_inv b n) (dispatch fuel)
    (fun key f w0 h0 => absent_inv_connect b n key f w0 h0)
    (fun fn obj w0 h0 => absent_inv_disconnect b n fn obj w0 h0)
    (fun j w0 h0 => absent_inv_conn_disconnect b n j w0 h0)
    (fun w0 h0 => absent_inv_clear b n w0 h0)
    (fun w0 w1 hd h0 => absent_inv_dispatch b n fuel w0 w1 hd h0)
    p w w' hx h

theorem absent_inv_loop (b : Key) (n fuel g : Nat) (ks : List Key) (i : Nat) (erased : Bool)
    (w : World) (r : Bool × World)
    (hx : loop (fun f w1 => run (dispatch fuel) f.body w1) g ks i erased w = Res.ok r)
    (h : absent_inv b n w) : absent_inv b n r.2 :=
  loop_preserves (absent_inv b n) _ g
    (fun k f w0 hf h0 => absent_inv_invoked b n k f w0 hf h0)
    (fun g i w0 w1 ht h0 => absent_inv_tombstone b n g i w0 w1 ht h0)
    (fun f w0 w1 hc h0 => absent_inv_run b n fuel f.body w0 w1 hc h0)
    ks i erased w r hx h

/-- C14, evaluated: in `clear_world` the callable under key 5 clears the signal.
The map the pass began with holds key 6, the new map does not, and the pass
invokes nothing under key 6: the key is looked up in the new map. The tombstone
goes to the released order vector, the new order sequence stays empty. -/
theorem lookup_after_clear_in_new_map :
    slot_list_t.find 6 clear_world.sig.m_slot_list
      = some { fn := 2, obj := 4, body := Prog.done } ∧
    dispatch 1 clear_world = Res.ok clear_after ∧
    events_since clear_world clear_after = [Event.invoke 5 1 4] ∧
    clear_after.sig = { m_slot_list := [], m_keys := [], obj_id := 1 } ∧
    clear_after.retired = [(0, [5])] := by
  decide

/-- After a `clear()` called by an invoked callable, a key that is not connected
again is not invoked in the rest of that callable and of the pass, whatever the
map from before the clear holds under it. -/
theorem cleared_key_not_invoked (fuel g i : Nat) (erased : Bool) (ks : List Key)
    (rest : Prog) (w0 w1 : World) (r : Bool × World) (b : Key)
    (h1 : run (dispatch fuel) rest w0.clear = Res.ok w1)
    (h2 : loop (fun f w => run (dispatch fuel) f.body w) g ks i erased w1 = Res.ok r)
    (hno : Event.connected b ∉ events_since w0 r.2) (fn obj : Nat) :
    Event.invoke b fn obj ∉ events_since w0 r.2 := by
  have h0 : absent_inv b w0.log.length w0.clear :=
    ⟨le_refl _, fun _ => ⟨rfl, fun fn obj => by simp [World.clear]⟩⟩
  have ha := absent_inv_run b _ fuel rest _ _ h1 h0
  have hb := absent_inv_loop b _ fuel g ks i erased w1 r h2 ha
  exact (hb.2 hno).2 fn obj

/-! ## Callables that only connect and disconnect: one call -/

theorem connected_keys_append (a b : List Event) :
    connected_keys (a ++ b) = connected_keys a ++ connected_keys b := by
  induction a with
  | nil => rfl
  | cons e a ih =>
    cases e <;> simp [connected_keys, ih]

theorem extends_by_refl (w : World) : extends_by w w [] :=
  ⟨rfl, by simp, rfl, by simp [connected_keys]⟩

theorem extends_by_trans (w w1 w2 : World) (e1 e2 : List Event)
    (h1 : extends_by w w1 e1) (h2 : extends_by w1 w2 e2) : extends_by w w2 (e1 ++ e2) := by
  obtain ⟨a1, a2, a3, a4⟩ := h1
  obtain ⟨b1, b2, b3, b4⟩ := h2
  refine ⟨by rw [b1, a1], by rw [b2, a2, List.append_assoc], ?_, ?_⟩
  · rw [List.filter_append, a3, b3]; rfl
  · rw [b4, a4, connected_keys_append, List.append_assoc]

theorem extends_by_connect (key : Key) (f : Slot) (w : World) :
    ∃ ev, extends_by w (w.connect key f) ev := by
  rcases signal_connect_cases key f w.sig with ⟨_, hs⟩ | ⟨_, hs⟩
  · refine ⟨[], ?_, ?_, rfl, ?_⟩ <;> simp [World.connect, hs, connected_keys]
  · refine ⟨[Event.connected key], ?_, ?_, rfl, ?_⟩ <;>
      simp [World.connect, hs, connected_keys]

theorem extends_by_disconnect (fn obj : Nat) (w : World) :
    ∃ ev, extends_by w (w.disconnect fn obj) ev :=
  ⟨[Event.erased (easy_hash fn obj)], rfl, rfl, rfl, by
    simp [World.disconnect, signal.disconnect, connected_keys]⟩

theorem extends_by_conn_disconnect (idx : Nat) (w : World) :
    ∃ ev, extends_by w (w.conn_disconnect idx) ev := by
  unfold World.conn_disconnect
  cases hj : w.conns[idx]? with
  | none => exact ⟨[], extends_by_refl w⟩
  | some c =>
    simp only
    cases hd : c.m_deleter with
    | none =>
      refine ⟨[], ?_, ?_, rfl, ?_⟩ <;> simp [connection.disconnect, hd, connected_keys]
    | some d =>
      by_cases hw : d.wp_slot = w.sig.obj_id
      · refine ⟨[Event.erased d.key], ?_, ?_, rfl, ?_⟩ <;>
          simp [connection.disconnect, hd, deleter.run, hw, connected_keys]
      · refine ⟨[], ?_, ?_, rfl, ?_⟩ <;>
          simp [connection.disconnect, hd, deleter.run, hw, connected_keys]

theorem rew_inv_connect (key : Key) (f : Slot) (w : World)
    (hf : Prog.rewiring f.body = true) (h : rew_inv w) : rew_inv (w.connect key f) := by
  intro k g hg
  rcases signal_connect_cases key f w.sig with ⟨_, hs⟩ | ⟨hnone, hs⟩
  · simp only [World.connect, hs] at hg
    exact h k g hg
  · simp only [World.connect, hs] at hg
    by_cases hk : k = key
    · subst hk
      rw [find_insert_self k f _ hnone] at hg
      simp only [Option.some.injEq] at hg
      subst hg
      exact hf
    · rw [find_insert_other key k f _ hk] at hg
      exact h k g hg

theorem listed_inv_connect (key : Key) (f : Slot) (w : World) (hkey : key ≠ 0)
    (hf : Prog.nonzero f.body = true) (h : listed_inv w) : listed_inv (w.connect key f) := by
  intro k g hg
  rcases signal_connect_cases key f w.sig with ⟨_, hs⟩ | ⟨hnone, hs⟩
  · simp only [World.connect, hs] at hg ⊢
    exact h k g hg
  · simp only [World.connect, hs] at hg ⊢
    by_cases hk : k = key
    · subst hk
      rw [find_insert_self k f _ hnone] at hg
      simp only [Option.some.injEq] at hg
      subst hg
      exact ⟨hkey, by simp, hf⟩
    · rw [find_insert_other key k f _ hk] at hg
      obtain ⟨h1, h2, h3⟩ := h k g hg
      exact ⟨h1, by simp [h2], h3⟩

theorem conn_disconnect_sig (idx : Nat) (w : World) :
    (w.conn_disconnect idx).sig = w.sig ∨
    ∃ key, (w.conn_disconnect idx).sig
      = { w.sig with m_slot_list := slot_list_t.erase key w.sig.m_slot_list } := by
  unfold World.conn_disconnect
  cases hj : w.conns[idx]? with
  | none => left; rfl
  | some c =>
    simp only
    cases hd : c.m_deleter with
    | none => left; simp [connection.disconnect, hd]
    | some d =>
      by_cases hw : d.wp_slot = w.sig.obj_id
      · right; exact ⟨d.key, by simp [connection.disconnect, hd, deleter.run, hw]⟩
      · left; simp [connection.disconnect, hd, deleter.run, hw]

theorem rew_inv_disconnect (fn obj : Nat) (w : World) (h : rew_inv w) :
    rew_inv (w.disconnect fn obj) :=
  fun k g hg => h k g (find_of_find_erase _ _ _ _ hg)

theorem listed_inv_disconnect (fn obj : Nat) (w : World) (h : listed_inv w) :
    listed_inv (w.disconnect fn obj) :=
  fun k g hg => h k g (find_of_find_erase _ _ _ _ hg)

theorem rew_inv_conn_disconnect (idx : Nat) (w : World) (h : rew_inv w) :
    rew_inv (w.conn_disconnect idx) := by
  intro k g hg
  rcases conn_disconnect_sig idx w with hs | ⟨key, hs⟩
  · rw [hs] at hg; exact h k g hg
  · rw [hs] at hg; exact h k g (find_of_find_erase _ _ _ _ hg)

theorem listed_inv_conn_disconnect (idx : Nat) (w : World) (h : listed_inv w) :
    listed_inv (w.conn_disconnect idx) := by
  intro k g hg
  rcases conn_disconnect_sig idx w with hs | ⟨key, hs⟩
  · rw [hs] at hg ⊢; exact h k g hg
  · rw [hs] at hg ⊢; exact h k g (find_of_find_erase _ _ _ _ hg)

/-- Running code that only connects and disconnects always returns; the pass
that invoked it is not needed. -/
theorem run_rewiring (d : World → Res World) :
    ∀ (p : Prog) (w : World), Prog.rewiring p = true → rew_inv w →
      ∃ w2 ev, run d p w = Res.ok w2 ∧ extends_by w w2 ev ∧ rew_inv w2 ∧
        (Prog.nonzero p = true → listed_inv w → listed_inv w2) := by
  intro p
  induction p with
  | done =>
    intro w _ h
    exact ⟨w, [], rfl, extends_by_refl w, h, fun _ hl => hl⟩
  | connect key fn obj body rest _ ih =>
    intro w hp h
    simp only [Prog.rewiring, Bool.and_eq_true] at hp
    obtain ⟨e1, he1⟩ := extends_by_connect key { fn := fn, obj := obj, body := body } w
    obtain ⟨w2, e2, hr, he2, hi, hl⟩ :=
      ih (w.connect key { fn := fn, obj := obj, body := body }) hp.2
        (rew_inv_connect key _ w hp.1 h)
    refine ⟨w2, e1 ++ e2, hr, extends_by_trans _ _ _ _ _ he1 he2, hi, ?_⟩
    intro hnz hlw
    simp only [Prog.nonzero, Bool.and_eq_true, decide_eq_true_eq] at hnz
    exact hl hnz.2 (listed_inv_connect key _ w hnz.1.1 hnz.1.2 hlw)
  | disconnect fn obj rest ih =>
    intro w hp h
    obtain ⟨e1, he1⟩ := extends_by_disconnect fn obj w
    obtain ⟨w2, e2, hr, he2, hi, hl⟩ :=
      ih (w.disconnect fn obj) hp (rew_inv_disconnect fn obj w h)
    exact ⟨w2, e1 ++ e2, hr, extends_by_trans _ _ _ _ _ he1 he2, hi,
      fun hnz hlw => hl hnz (listed_inv_disconnect fn obj w hlw)⟩
  | conn_disconnect idx rest ih =>
    intro w hp h
    obtain ⟨e1, he1⟩ := extends_by_conn_disconnect idx w
    obtain ⟨w2, e2, hr, he2, hi, hl⟩ :=
      ih (w.conn_disconnect idx) hp (rew_inv_conn_disconnect idx w h)
    exact ⟨w2, e1 ++ e2, hr, extends_by_trans _ _ _ _ _ he1 he2, hi,
      fun hnz hlw => hl hnz (listed_inv_conn_disconnect idx w hlw)⟩
  | clear rest _ =>
    intro w hp
    simp [Prog.rewiring] at hp
  | dispatch rest _ =>
    intro w hp
    simp [Prog.rewiring] at hp


/-! ## Callables that only connect and disconnect: the loop of a pass -/

theorem tombstone_at (w : World) (done rest : List Key) (k : Key)
    (hkeys : w.sig.m_keys = done ++ k :: rest) :
    w.tombstone w.sig.obj_id done.length
      = Res.ok { w with sig := { w.sig with m_keys := done ++ 0 :: rest } } ∧
    (w.vec_at w.sig.obj_id).bind (fun v => v[done.length]?) = some k := by
  have hlt : done.length < w.sig.m_keys.length := by
    rw [hkeys]; simp
  constructor
  · simp only [World.tombstone, vec_at_self, hlt, if_true, set_vec_self]
    rw [hkeys]
    simp
  · simp only [vec_at_self, Option.some_bind]
    rw [hkeys, List.getElem?_append_right (le_refl _)]
    simp

theorem connect_appends (key : Key) (f : Slot) (w : World) :
    (w.connect key f).sig.m_keys = w.sig.m_keys ∨
    (w.connect key f).sig.m_keys = w.sig.m_keys ++ [key] := by
  rcases signal_connect_cases key f w.sig with ⟨_, hs⟩ | ⟨_, hs⟩
  · left; simp [World.connect, hs]
  · right; simp [World.connect, hs]

/-- Code that only connects and disconnects, with keys other than 0, appends
keys other than 0 to the order sequence. -/
theorem run_appends_nonzero (d : World → Res World) :
    ∀ (p : Prog) (w w2 : World), Prog.rewiring p = true → Prog.nonzero p = true →
      run d p w = Res.ok w2 →
      ∃ app, w2.sig.m_keys = w.sig.m_keys ++ app ∧ (0 : Key) ∉ app := by
  intro p
  induction p with
  | done =>
    intro w w2 _ _ hx
    simp only [run, Res.ok.injEq] at hx
    exact ⟨[], by rw [← hx]; simp, by simp⟩
  | connect key fn obj body rest _ ih =>
    intro w w2 hp hn hx
    simp only [Prog.rewiring, Bool.and_eq_true] at hp
    simp only [Prog.nonzero, Bool.and_eq_true, decide_eq_true_eq] at hn
    obtain ⟨app, ha, h0⟩ :=
      ih (w.connect key { fn := fn, obj := obj, body := body }) w2 hp.2 hn.2 hx
    rcases connect_appends key { fn := fn, obj := obj, body := body } w with hc | hc
    · exact ⟨app, by rw [ha, hc], h0⟩
    · refine ⟨key :: app, by rw [ha, hc]; simp, ?_⟩
      simp only [List.mem_cons, not_or]
      exact ⟨fun h => hn.1.1 h.symm, h0⟩
  | disconnect fn obj rest ih =>
    intro w w2 hp hn hx
    exact ih (w.disconnect fn obj) w2 hp hn hx
  | conn_disconnect idx rest ih =>
    intro w w2 hp hn hx
    obtain ⟨app, ha, h0⟩ := ih (w.conn_disconnect idx) w2 hp hn hx
    rcases conn_disconnect_sig idx w with hs | ⟨key, hs⟩
    · exact ⟨app, by rw [ha, hs], h0⟩
    · exact ⟨app, by rw [ha, hs], h0⟩
  | clear rest _ =>
    intro w w2 hp
    simp [Prog.rewiring] at hp
  | dispatch rest _ =>
    intro w w2 hp
    simp [Prog.rewiring] at hp

theorem loop_rewiring (d : World → Res World) :
    ∀ (ks done app : List Key) (erased : Bool) (w : World),
      rew_inv w → w.sig.m_keys = done ++ ks ++ app →
      ∃ r marks ev,
        loop (fun f w1 => run d f.body w1) w.sig.obj_id ks done.length erased w = Res.ok r ∧
        writes_on_key (fun f w1 => run d f.body w1) w.sig.obj_id ks done.length w = true ∧
        r.2.sig.obj_id = w.sig.obj_id ∧
        rew_inv r.2 ∧
        r.2.log = w.log ++ ev ∧
        (ev.filter is_invoke).length ≤ ks.length ∧
        List.Forall₂ (fun k m => m = k ∨ m = 0) ks marks ∧
        r.2.sig.m_keys = done ++ marks ++ (app ++ connected_keys ev) ∧
        (r.1 = false → marks = ks) ∧ (erased = true → r.1 = true) ∧
        (listed_inv w → listed_inv r.2) ∧
        (listed_inv w → (0 : Key) ∉ connected_keys ev) ∧
        ((0 : Key) ∉ ks →
          kept (fun f w1 => run d f.body w1) w.sig.obj_id ks done.length w
            = marks.filter (fun k => decide (k ≠ 0))) := by
  intro ks
  induction ks with
  | nil =>
    intro done app erased w h hkeys
    refine ⟨(erased, w), [], [], rfl, rfl, rfl, h, by simp, by simp, List.Forall₂.nil, ?_,
      fun _ => rfl, fun he => he, fun hl => hl, fun _ => by simp [connected_keys],
      fun _ => rfl⟩
    simp [hkeys, connected_keys]
  | cons k ks ih =>
    intro done app erased w h hkeys
    cases hf : slot_list_t.find k w.sig.m_slot_list with
    | some f =>
      have hw0 : rew_inv (w.invoked k f) := h
      obtain ⟨w2, e2, hr, ⟨x1, x2, x3, x4⟩, hi, hl⟩ :=
        run_rewiring d f.body (w.invoked k f) (h k f hf) hw0
      have hobj : w2.sig.obj_id = w.sig.obj_id := x1
      have hkeys2 : w2.sig.m_keys = (done ++ [k]) ++ ks ++ (app ++ connected_keys e2) := by
        rw [x4]
        show w.sig.m_keys ++ connected_keys e2 = _
        rw [hkeys]
        simp
      obtain ⟨r, marks, ev, y1, y2, y3, y4, y5, y6, y7, y8, y9, y10, y11, y12, y13⟩ :=
        ih (done ++ [k]) (app ++ connected_keys e2) erased w2 hi hkeys2
      simp only [List.length_append, List.length_singleton, hobj] at y1 y2 y13
      refine ⟨r, k :: marks, Event.invoke k f.fn f.obj :: (e2 ++ ev), ?_, ?_, ?_, y4, ?_, ?_,
        List.Forall₂.cons (Or.inl rfl) y7, ?_, ?_, y10, ?_, ?_, ?_⟩
      · simp only [loop, hf, hr]
        exact y1
      · simp only [writes_on_key, hf, hr]
        exact y2
      · rw [y3, hobj]
      · rw [y5, x2]
        simp [World.invoked]
      · simp only [List.filter_cons, is_invoke, if_true, List.filter_append, x3,
          List.nil_append, List.length_cons]
        omega
      · rw [y8]
        simp [connected_keys, connected_keys_append]
      · intro hfalse
        rw [y9 hfalse]
      · intro hlw
        exact y11 (hl (hlw k f hf).2.2 hlw)
      · intro hlw
        obtain ⟨a2, ha2, h02⟩ :=
          run_appends_nonzero d f.body (w.invoked k f) w2 (h k f hf) (hlw k f hf).2.2 hr
        have hck : connected_keys e2 = a2 := by
          rw [x4] at ha2
          exact List.append_cancel_left ha2
        have hev := y12 (hl (hlw k f hf).2.2 hlw)
        simp only [connected_keys, connected_keys_append, List.mem_append, not_or]
        exact ⟨hck ▸ h02, hev⟩
      · intro h0
        simp only [List.mem_cons, not_or] at h0
        simp only [kept, hf, hr]
        rw [y13 h0.2, List.filter_cons, if_pos (by simpa using Ne.symm h0.1)]
    | none =>
      have hkeys1 : w.sig.m_keys = done ++ k :: (ks ++ app) := by
        rw [hkeys]; simp
      obtain ⟨ht, hpos⟩ := tombstone_at w done (ks ++ app) k hkeys1
      have hkeys2 : ({ w with sig := { w.sig with m_keys := done ++ 0 :: (ks ++ app) } } : World).sig.m_keys
          = (done ++ [0]) ++ ks ++ app := by
        simp
      obtain ⟨r, marks, ev, y1, y2, y3, y4, y5, y6, y7, y8, y9, y10, y11, y12, y13⟩ :=
        ih (done ++ [0]) app true
          { w with sig := { w.sig with m_keys := done ++ 0 :: (ks ++ app) } } h hkeys2
      simp only [List.length_append, List.length_singleton] at y1 y2 y13
      have hl1 : listed_inv w →
          listed_inv { w with sig := { w.sig with m_keys := done ++ 0 :: (ks ++ app) } } := by
        intro hlw k' g hg
        obtain ⟨h1, h2, h3⟩ := hlw k' g hg
        refine ⟨h1, ?_, h3⟩
        have hne : k' ≠ k := by
          intro hk
          rw [hk, hf] at hg
          cases hg
        rw [hkeys1] at h2
        simp only [List.mem_append, List.mem_cons] at h2 ⊢
        rcases h2 with h2 | h2 | h2
        · exact Or.inl h2
        · exact absurd h2 hne
        · exact Or.inr (Or.inr (by simpa using h2))
      refine ⟨r, 0 :: marks, ev, ?_, ?_, y3, y4, y5, ?_,
        List.Forall₂.cons (Or.inr rfl) y7, ?_, ?_, fun _ => y10 rfl,
        fun hlw => y11 (hl1 hlw), fun hlw => y12 (hl1 hlw), ?_⟩
      · simp only [loop, hf, ht]
        exact y1
      · simp only [writes_on_key, hf, ht, hpos, decide_True, Bool.true_and]
        exact y2
      · simp only [List.length_cons]
        omega
      · rw [y8]
        simp
      · intro hfalse
        rw [y10 rfl] at hfalse
        cases hfalse
      · intro h0
        simp only [List.mem_cons, not_or] at h0
        simp only [kept, hf, ht]
        rw [y13 h0.2, List.filter_cons, if_neg (by simp)]


/-! ## Callables that only connect and disconnect: the whole pass -/

theorem marks_filter_sublist (ks marks : List Key)
    (h : List.Forall₂ (fun k m => m = k ∨ m = 0) ks marks) :
    (marks.filter (fun k => decide (k ≠ 0))).Sublist ks := by
  induction h with
  | nil => exact List.Sublist.slnil
  | @cons k m ks' marks' hkm _ ih =>
    rw [List.filter_cons]
    rcases hkm with hm | hm
    · subst hm
      by_cases h0 : m ≠ 0
      · rw [if_pos (by simpa using h0)]
        exact List.Sublist.cons₂ m ih
      · rw [if_neg (by simpa using h0)]
        exact List.Sublist.cons m ih
    · subst hm
      rw [if_neg (by simp)]
      exact List.Sublist.cons k ih

theorem compact_self (w : World) :
    w.compact w.sig.obj_id
      = { w with sig := { w.sig with m_keys := w.sig.m_keys.filter (fun k => decide (k ≠ 0)) } } := by
  simp [World.compact, vec_at_self, set_vec_self]

theorem dispatch_rewiring (fuel : Nat) (w : World) (h : rew_inv w) :
    ∃ w', dispatch (fuel + 1) w = Res.ok w' ∧
      pass_writes_on_key fuel w = true ∧
      w'.sig.obj_id = w.sig.obj_id ∧
      rew_inv w' ∧
      ((events_since w w').filter is_invoke).length ≤ w.sig.m_keys.length ∧
      w'.sig.m_keys.Sublist (w.sig.m_keys ++ connected_keys (events_since w w')) ∧
      (listed_inv w → listed_inv w') ∧
      (listed_inv w → (0 : Key) ∉ connected_keys (events_since w w')) ∧
      (listed_inv w → (0 : Key) ∉ w.sig.m_keys →
        w'.sig.m_keys = pass_kept fuel w ++ connected_keys (events_since w w')) := by
  obtain ⟨r, marks, ev, y1, y2, y3, y4, y5, y6, y7, y8, y9, _, y11, y12, y13⟩ :=
    loop_rewiring (dispatch fuel) w.sig.m_keys [] [] false w h (by simp)
  simp only [List.length_nil, List.nil_append] at y1 y2 y8 y13
  have hfilter : ∀ l : List Key, (0 : Key) ∉ l → l.filter (fun k => decide (k ≠ 0)) = l := by
    intro l hl
    rw [List.filter_eq_self]
    intro a ha
    have : a ≠ 0 := fun h0 => hl (h0 ▸ ha)
    simpa using this
  have hcomp : r.2.compact w.sig.obj_id
      = { r.2 with sig := { r.2.sig with
            m_keys := r.2.sig.m_keys.filter (fun k => decide (k ≠ 0)) } } := by
    rw [← y3]; exact compact_self r.2
  by_cases hr : r.1 = true
  · refine ⟨r.2.compact w.sig.obj_id, ?_, y2, ?_, ?_, ?_, ?_, ?_, ?_, ?_⟩
    · simp only [dispatch, y1, hr, if_true]
    · rw [hcomp]; exact y3
    · rw [hcomp]; exact y4
    · rw [hcomp]
      simp only [events_since, y5, List.drop_left]
      exact y6
    · rw [hcomp]
      simp only [events_since, y5, List.drop_left, y8, List.filter_append]
      exact List.Sublist.append (marks_filter_sublist _ _ y7) (List.filter_sublist _)
    · intro hl
      rw [hcomp]
      intro k f hf
      obtain ⟨h1, h2, h3⟩ := y11 hl k f hf
      exact ⟨h1, List.mem_filter.mpr ⟨h2, by simpa using h1⟩, h3⟩
    · intro hl
      rw [hcomp]
      simp only [events_since, y5, List.drop_left]
      exact y12 hl
    · intro hl h0
      rw [hcomp]
      simp only [events_since, y5, List.drop_left, y8, List.filter_append, pass_kept]
      rw [y13 h0, hfilter _ (y12 hl)]
  · have hfalse : r.1 = false := by simpa using hr
    refine ⟨r.2, ?_, y2, y3, y4, ?_, ?_, y11, ?_, ?_⟩
    · simp only [dispatch, y1, hfalse]
      rfl
    · simp only [events_since, y5, List.drop_left]
      exact y6
    · simp only [events_since, y5, List.drop_left, y8, y9 hfalse]
      exact List.Sublist.refl _
    · intro hl
      simp only [events_since, y5, List.drop_left]
      exact y12 hl
    · intro hl h0
      simp only [events_since, y5, List.drop_left, y8, pass_kept]
      rw [y13 h0, y9 hfalse, hfilter _ h0]

theorem find_mem (k : Key) (f : Slot) :
    ∀ m : slot_list_t, slot_list_t.find k m = some f → (k, f) ∈ m := by
  intro m
  induction m with
  | nil => intro h; simp [slot_list_t.find] at h
  | cons e m ih =>
    intro h
    simp only [slot_list_t.find] at h
    by_cases he : e.1 = k
    · simp only [he, if_true, Option.some.injEq] at h
      have : e = (k, f) := Prod.ext he h
      simp [this]
    · simp only [he, if_false] at h
      exact List.mem_cons_of_mem _ (ih h)

theorem rew_inv_of_all (w : World)
    (h : w.sig.m_slot_list.all (fun e => Prog.rewiring e.2.body) = true) : rew_inv w := by
  intro k f hf
  exact List.all_eq_true.mp h (k, f) (find_mem k f _ hf)

/-- C20: when the callables in the slot map (and those they connect) call only
connect and disconnect, a dispatch pass completes, at any call depth allowed,
and invokes at most as many callables as the order sequence had entries when
the pass began. -/
theorem rewiring_pass_terminates (w : World) (h : rew_inv w) (fuel : Nat) :
    ∃ w', dispatch (fuel + 1) w = Res.ok w' ∧
      ((events_since w w').filter is_invoke).length ≤ w.sig.m_keys.length := by
  obtain ⟨w', hw', _, _, _, hcount, _, _⟩ := dispatch_rewiring fuel w h
  exact ⟨w', hw', hcount⟩

/-- C20, at `chain_world`, where every invoked callable connects a further one. -/
theorem rewiring_pass_terminates_witness :
    rew_inv chain_world ∧
    ∃ w', dispatch 1 chain_world = Res.ok w' ∧
      ((events_since chain_world w').filter is_invoke).length ≤ chain_world.sig.m_keys.length :=
  ⟨rew_inv_of_all chain_world (by decide),
   rewiring_pass_terminates chain_world (rew_inv_of_all chain_world (by decide)) 0⟩

/-! ## A pass inside a pass -/

/-- C16, evaluated. In `nested_world` the callable under key 5 disconnects itself
and calls the signal again; the inner pass compacts the live order sequence to
`[7, 12]`; the outer pass then writes its tombstone for key 6 at index 1, which
holds key 12, still in the slot map: the write does not land on the absent key,
and after the pass key 12 is in the map and not in the order sequence. In
`nested_short_world` the inner pass leaves the live order sequence empty and
the write at index 1 is out of bounds. -/
theorem tombstone_after_inner_pass :
    exec 1 nested_calls World.new = Res.ok nested_world ∧
    dispatch 2 nested_world = Res.ok nested_after ∧
    pass_writes_on_key 1 nested_world = false ∧
    slot_list_t.find 12 nested_after.sig.m_slot_list
      = some { fn := 8, obj := 4, body := Prog.done } ∧
    nested_after.sig.m_keys = [7] ∧
    exec 1 nested_short_calls World.new = Res.ok nested_short_world ∧
    dispatch 2 nested_short_world = Res.fault Fault.out_of_bounds := by
  decide

/-! ## Key 0 -/

/-- C18: the closure of a connection made for the current registry erases its
key from the slot map whatever callable is stored under it by then. In
`reconnect_dispose_calls` the pair `(1, 4)` is connected (first connection),
disconnected by the direct form and connected again; `disconnect()` on the first
connection then erases the second registration, the slot map is empty, and the
pass that follows invokes nothing. -/
theorem disposal_erases_later_registration :
    (∀ (d : deleter) (s : signal), d.wp_slot = s.obj_id →
      slot_list_t.find d.key (connection.disconnect { m_deleter := some d } s).2.m_slot_list
        = none) ∧
    exec 1 reconnect_calls World.new = Res.ok reconnect_world ∧
    (reconnect_world.conn_disconnect 0).sig.m_slot_list = [] ∧
    exec 1 reconnect_dispose_calls World.new
      = Res.ok
          { sig := { m_slot_list := [], m_keys := [], obj_id := 0 }
            conns := [{ m_deleter := none }, { m_deleter := some { wp_slot := 0, key := 5 } }]
            retired := []
            log := [Event.connected 5, Event.erased 5, Event.connected 5, Event.erased 5] } := by
  refine ⟨?_, by decide, by decide, by decide⟩
  intro d s hlive
  simp only [connection.disconnect, deleter.run, hlive, if_true]
  exact find_erase_self _ _

/-- C18, at the signal of `reconnect_world` and the closure of the first
connection. -/
theorem disposal_erases_later_registration_witness :
    slot_list_t.find 5 reconnect_world.sig.m_slot_list
      = some { fn := 1, obj := 4, body := Prog.done } ∧
    slot_list_t.find 5
        (connection.disconnect { m_deleter := some { wp_slot := 0, key := 5 } }
          reconnect_world.sig).2.m_slot_list
      = none :=
  ⟨by decide,
   disposal_erases_later_registration.1 { wp_slot := 0, key := 5 } reconnect_world.sig
     (by decide)⟩

/-- C19: the pairs `(1, 4)` and `(2, 7)` differ in pointer word and in receiver
address and have the same key. While a callable is stored under that key,
connecting the pair `(2, 7)` returns a connection with an empty deleter and
leaves the signal as it is. In `equal_key_calls` only the callable `(1, 4)` is
invoked by the two passes. -/
theorem equal_keys_rejected :
    (1 : Nat) ≠ 2 ∧ (4 : Nat) ≠ 7 ∧ easy_hash 1 4 = easy_hash 2 7 ∧
    (∀ (s : signal) (f : Slot) (body : Prog),
      slot_list_t.find (easy_hash 1 4) s.m_slot_list = some f →
      signal.connect_member 2 7 body s = ({ m_deleter := none }, s)) ∧
    exec 1 equal_key_calls World.new
      = Res.ok
          { sig :=
              { m_slot_list := [(5, { fn := 1, obj := 4, body := Prog.done })]
                m_keys := [5]
                obj_id := 0 }
            conns := [{ m_deleter := some { wp_slot := 0, key := 5 } }, { m_deleter := none }]
            retired := []
            log := [Event.connected 5, Event.invoke 5 1 4, Event.invoke 5 1 4] } := by
  refine ⟨by decide, by decide, by decide, ?_, by decide⟩
  intro s f body hf
  have hk : easy_hash 2 7 = easy_hash 1 4 := by decide
  simp [signal.connect_member, easy_bind, signal.connect, slot_list_t.emplace, hk, hf]

/-- C19, at the signal of `main_world` with the pair `(1, 4)` connected on top. -/
theorem equal_keys_rejected_witness :
    signal.connect_member 2 7 Prog.done
        (signal.connect_member 1 4 Prog.done main_world.sig).2
      = ({ m_deleter := none }, (signal.connect_member 1 4 Prog.done main_world.sig).2) :=
  equal_keys_rejected.2.2.2.1 (signal.connect_member 1 4 Prog.done main_world.sig).2
    { fn := 1, obj := 4, body := Prog.done } Prog.done (by decide)

/-! ## After a clear, every remaining key is looked up in the current map -/

theorem loop_append (call : Slot → World → Res World) (g : Nat) (post : List Key) :
    ∀ (pre : List Key) (i : Nat) (erased : Bool) (w : World),
      loop call g (pre ++ post) i erased w
        = match loop call g pre i erased w with
          | Res.ok r => loop call g post (i + pre.length) r.1 r.2
          | Res.fault e => Res.fault e := by
  intro pre
  induction pre with
  | nil =>
    intro i erased w
    simp [loop]
  | cons k ks ih =>
    intro i erased w
    simp only [List.cons_append, loop, List.length_cons]
    cases hf : slot_list_t.find k w.sig.m_slot_list with
    | some f =>
      simp only
      cases hc : call f (w.invoked k f) with
      | ok w1 =>
        simp only
        rw [show ks.append post = ks ++ post from rfl, ih]
        have : i + 1 + ks.length = i + (ks.length + 1) := by omega
        rw [this]
      | fault e => rfl
    | none =>
      simp only
      cases ht : w.tombstone g i with
      | ok w1 =>
        simp only
        rw [show ks.append post = ks ++ post from rfl, ih]
        have : i + 1 + ks.length = i + (ks.length + 1) := by omega
        rw [this]
      | fault e => rfl

theorem conn_disconnect_obj_id (idx : Nat) (w : World) :
    (w.conn_disconnect idx).sig.obj_id = w.sig.obj_id := by
  rcases conn_disconnect_sig idx w with hs | ⟨key, hs⟩ <;> rw [hs]

theorem obj_id_above_dispatch (n fuel : Nat) (w w' : World)
    (hx : dispatch fuel w = Res.ok w') (h : n < w.sig.obj_id) : n < w'.sig.obj_id :=
  dispatch_preserves (fun w => n < w.sig.obj_id)
    (fun key f w0 h0 => by
      show n < (signal.connect (key, f) w0.sig).2.obj_id
      rw [signal_connect_obj_id]; exact h0)
    (fun _ _ _ h0 => h0)
    (fun j w0 h0 => by
      show n < (w0.conn_disconnect j).sig.obj_id
      rw [conn_disconnect_obj_id]; exact h0)
    (fun w0 h0 => by
      show n < w0.sig.obj_id + 1
      exact Nat.lt_succ_of_lt h0)
    (fun _ _ _ _ h0 => h0)
    (fun g i w0 w1 ht h0 => by
      obtain ⟨v, hv⟩ := tombstone_eq g i w0 w1 ht
      show n < w1.sig.obj_id
      rw [hv, set_vec_obj_id]; exact h0)
    (fun g w0 h0 => by
      show n < (w0.compact g).sig.obj_id
      rcases compact_eq g w0 with hv | ⟨v, hv⟩
      · rw [hv]; exact h0
      · rw [hv, set_vec_obj_id]; exact h0)
    fuel w w' hx h

theorem obj_id_above_run (n fuel : Nat) (p : Prog) (w w' : World)
    (hx : run (dispatch fuel) p w = Res.ok w') (h : n < w.sig.obj_id) : n < w'.sig.obj_id :=
  run_preserves (fun w => n < w.sig.obj_id) (dispatch fuel)
    (fun key f w0 h0 => by
      show n < (signal.connect (key, f) w0.sig).2.obj_id
      rw [signal_connect_obj_id]; exact h0)
    (fun _ _ _ h0 => h0)
    (fun j w0 h0 => by
      show n < (w0.conn_disconnect j).sig.obj_id
      rw [conn_disconnect_obj_id]; exact h0)
    (fun w0 h0 => by
      show n < w0.sig.obj_id + 1
      exact Nat.lt_succ_of_lt h0)
    (fun w0 w1 hd h0 => obj_id_above_dispatch n fuel w0 w1 hd h0)
    p w w' hx h

theorem obj_id_above_loop (n fuel g : Nat) (ks : List Key) (i : Nat) (erased : Bool)
    (w : World) (r : Bool × World)
    (hx : loop (fun f w1 => run (dispatch fuel) f.body w1) g ks i erased w = Res.ok r)
    (h : n < w.sig.obj_id) : n < r.2.sig.obj_id :=
  loop_preserves (fun w => n < w.sig.obj_id) _ g
    (fun _ _ _ _ h0 => h0)
    (fun g i w0 w1 ht h0 => by
      obtain ⟨v, hv⟩ := tombstone_eq g i w0 w1 ht
      show n < w1.sig.obj_id
      rw [hv, set_vec_obj_id]; exact h0)
    (fun f w0 w1 hc h0 => obj_id_above_run n fuel f.body w0 w1 hc h0)
    ks i erased w r hx h

/-- C14, amended. A callable invoked by a pass calls `clear()` in world `w0` and
goes on with `rest`, returning in `w1`; the pass goes through the keys `pre` of
its snapshot and reaches key `k` in world `w2`. The map the signal points to
then has another identity than the one from before the clear, and the map from
before the clear has no part in any of this (any other content gives the same
worlds). If that current map holds a callable under `k`, the pass invokes this
callable and goes on with the rest `post` of the snapshot; if it holds none,
the pass writes a tombstone through `keysref` and goes on. -/
theorem lookup_after_clear (fuel g i : Nat) (erased e2 : Bool) (pre post : List Key)
    (k : Key) (rest : Prog) (w0 w1 w2 : World)
    (h1 : run (dispatch fuel) rest w0.clear = Res.ok w1)
    (h2 : loop (fun f w => run (dispatch fuel) f.body w) g pre i erased w1 = Res.ok (e2, w2)) :
    w0.sig.obj_id < w2.sig.obj_id ∧
    (∀ m' : slot_list_t,
      run (dispatch fuel) rest
        ({ w0 with sig := { w0.sig with m_slot_list := m' } } : World).clear = Res.ok w1) ∧
    (∀ f, slot_list_t.find k w2.sig.m_slot_list = some f →
      loop (fun f w => run (dispatch fuel) f.body w) g (pre ++ k :: post) i erased w1
        = match run (dispatch fuel) f.body (w2.invoked k f) with
          | Res.ok w3 =>
            loop (fun f w => run (dispatch fuel) f.body w) g post (i + pre.length + 1) e2 w3
          | Res.fault x => Res.fault x) ∧
    (slot_list_t.find k w2.sig.m_slot_list = none →
      loop (fun f w => run (dispatch fuel) f.body w) g (pre ++ k :: post) i erased w1
        = match w2.tombstone g (i + pre.length) with
          | Res.ok w3 =>
            loop (fun f w => run (dispatch fuel) f.body w) g post (i + pre.length + 1) true w3
          | Res.fault x => Res.fault x) := by
  refine ⟨?_, fun m' => h1, ?_, ?_⟩
  · have ha : w0.sig.obj_id < w0.clear.sig.obj_id := Nat.lt_succ_self _
    exact obj_id_above_loop _ fuel g pre i erased w1 _ h2
      (obj_id_above_run _ fuel rest _ _ h1 ha)
  · intro f hf
    rw [loop_append, h2]
    simp only [loop, hf]
  · intro hf
    rw [loop_append, h2]
    simp only [loop, hf]

/-- C14, amended, at `clear_reconnect_world`: before the clear the map holds the
callable `(2, 4)` under key 6; the callable under key 5 clears the signal and
connects `(3, 5)` under key 6; at the position of key 6 the pass invokes
`(3, 5)`, the callable of the new map. -/
theorem lookup_after_clear_witness :
    slot_list_t.find 6 clear_reconnect_called.sig.m_slot_list
      = some { fn := 2, obj := 4, body := Prog.done } ∧
    loop (fun f w => run (dispatch 0) f.body w) 0 ([] ++ 6 :: []) 1 false
        clear_reconnect_returned
      = Res.ok (false,
          clear_reconnect_returned.invoked 6 { fn := 3, obj := 5, body := Prog.done }) ∧
    dispatch 1 clear_reconnect_world
      = Res.ok (clear_reconnect_returned.invoked 6 { fn := 3, obj := 5, body := Prog.done }) :=
  ⟨by decide,
   ((lookup_after_clear 0 0 1 false false [] [] 6
      (Prog.connect (easy_hash 3 5) 3 5 Prog.done Prog.done)
      clear_reconnect_called clear_reconnect_returned clear_reconnect_returned
      (by decide) (by decide)).2.2.1 { fn := 3, obj := 5, body := Prog.done } (by decide)).trans
     (by decide),
   by decide⟩

end mp
